import Mathlib

/-!
# MBTA example: route graph, breadth-first search and connection resolver

A shallow embedding of `mbta_example.go`.  Go maps with string keys are
association lists read by first match (`mapGet?`) and written in place or at
the end (`mapSet`); a missing key reads as the zero value of the value type,
as in Go.  Loops whose termination is not structural carry a fuel argument
and return `none` when it runs out.  The functions that query the stops of a
route take the stop feed as an argument and return, next to their result,
the route IDs they queried; a `range` over a map takes the order in which it
visits the entries as an argument, since Go leaves that order open.
-/

namespace MBTA

/-! ## Go maps -/

/-- A Go `map[string]β`: an association list, read by first match. -/
abbrev GoMap (β : Type) := List (String × β)

/-- Comma-ok map read `v, ok := m[k]`. -/
def mapGet? {β : Type} : GoMap β → String → Option β
  | [], _ => none
  | (k, v) :: m, key => if k = key then some v else mapGet? m key

/-- Map write `m[k] = v`. -/
def mapSet {β : Type} : GoMap β → String → β → GoMap β
  | [], key, val => [(key, val)]
  | (k, v) :: m, key, val => if k = key then (key, val) :: m else (k, v) :: mapSet m key val

/-- The keys of a map that are bound, without repetition. -/
def mapKeys {β : Type} (m : GoMap β) : List String := (m.map Prod.fst).dedup

/-- Alias for map from route id to a list of adjacent routes. -/
abbrev adjacencyMap := GoMap (List String)

/-- Map read `adjacentRoutes[route]`: the nil slice for a missing key. -/
def adjGet (m : adjacencyMap) (k : String) : List String := (mapGet? m k).getD []

/-- Map read `visited[route]`: false for a missing key. -/
def visitedGet (m : GoMap Bool) (k : String) : Bool := (mapGet? m k).getD false

/-- Map read `parents[route]`: the empty string for a missing key. -/
def parentGet (m : GoMap String) (k : String) : String := (mapGet? m k).getD ""

/-- Helper function for finding string list entries. -/
def contains : List String → String → Bool
  | [], _ => false
  | val :: list, value => if val = value then true else contains list value

/-! ## Breadth-first search -/

/-- The local variables of `buildTraversal`. -/
structure BfsState where
  parents : GoMap String
  visited : GoMap Bool
  queue : List String

/-- The loop `for k := range adjacentRoutes { visited[k] = false }`. -/
def initVisited : adjacencyMap → GoMap Bool → GoMap Bool
  | [], vis => vis
  | (k, _) :: m, vis => initVisited m (mapSet vis k false)

/-- The loop over the children of `currentRoute`; the flag is true when the
destination was reached and `parents` is returned. -/
def scanChildren (destRoute currentRoute : String) : List String → BfsState → BfsState × Bool
  | [], s => (s, false)
  | childRoute :: rest, s =>
    if visitedGet s.visited childRoute then scanChildren destRoute currentRoute rest s
    else
      let s1 : BfsState :=
        { parents := mapSet s.parents childRoute currentRoute
          visited := mapSet s.visited childRoute true
          queue := s.queue ++ [childRoute] }
      if childRoute = destRoute then (s1, true)
      else scanChildren destRoute currentRoute rest s1

/-- The loop `for queue.Len() != 0`; `none` when the fuel runs out, the empty
map for the `nil` result. -/
def bfsLoop (destRoute : String) (adjacentRoutes : adjacencyMap) :
    Nat → BfsState → Option (GoMap String)
  | 0, _ => none
  | fuel + 1, s =>
    match s.queue with
    | [] => some []
    | currentRoute :: rest =>
      let s1 : BfsState :=
        { parents := s.parents
          visited := mapSet s.visited currentRoute true
          queue := rest }
      match scanChildren destRoute currentRoute (adjGet adjacentRoutes currentRoute) s1 with
      | (s2, true) => some s2.parents
      | (s2, false) => bfsLoop destRoute adjacentRoutes fuel s2

/-- The state of `buildTraversal` when its search loop is entered. -/
def bfsInit (srcRoute : String) (adjacentRoutes : adjacencyMap) : BfsState :=
  { parents := []
    visited := mapSet (initVisited adjacentRoutes []) srcRoute true
    queue := [srcRoute] }

/-- `buildTraversal` with an explicit bound on the iterations of its search loop. -/
def buildTraversalFuel (fuel : Nat) (srcRoute destRoute : String)
    (adjacentRoutes : adjacencyMap) : Option (GoMap String) :=
  bfsLoop destRoute adjacentRoutes fuel (bfsInit srcRoute adjacentRoutes)

/-- All routes listed as a neighbour of some route. -/
def allChildren (adjacentRoutes : adjacencyMap) : List String :=
  adjacentRoutes.flatMap Prod.snd

/-- A number of loop iterations that is enough for every search on the graph. -/
def searchFuel (adjacentRoutes : adjacencyMap) : Nat :=
  (allChildren adjacentRoutes).length + 2

/-- Does a breadth-first search of the routes graph until the destination
route is found; returns the map from each route visited to its parent route.
The search loop is given `searchFuel` iterations, which are enough for it to
end on every input. -/
def buildTraversal (srcRoute destRoute : String) (adjacentRoutes : adjacencyMap) :
    GoMap String :=
  (buildTraversalFuel (searchFuel adjacentRoutes) srcRoute destRoute adjacentRoutes).getD []

/-! ## Connection resolver -/

/-- The loop `for curRoute != fromRoute` that prepends the routes of the
predecessor walk to `connections`. -/
def walkBack (parents : GoMap String) (fromRoute : String) :
    Nat → String → List String → Option (List String)
  | fuel, curRoute, connections =>
    if curRoute = fromRoute then some connections
    else
      match fuel with
      | 0 => none
      | fuel + 1 =>
        walkBack parents fromRoute fuel (parentGet parents curRoute) (curRoute :: connections)

/-- The inner loop of `getConnectingRoutes` over `toRoutes`; returns
`connections` and `connectionFound`. -/
def connectInner (fuel : Nat) (adjacentRoutes : adjacencyMap) (fromRoute : String) :
    List String → List String → Option (List String × Bool)
  | [], connections => some (connections, false)
  | toRoute :: rest, connections =>
    if fromRoute = toRoute then some (connections ++ [fromRoute], true)
    else
      match buildTraversalFuel fuel fromRoute toRoute adjacentRoutes with
      | none => none
      | some parents =>
        if parents.length = 0 then connectInner fuel adjacentRoutes fromRoute rest connections
        else
          match walkBack parents fromRoute fuel toRoute connections with
          | none => none
          | some connections1 => some (fromRoute :: connections1, true)

/-- The outer loop of `getConnectingRoutes` over `fromRoutes`. -/
def connectOuter (fuel : Nat) (adjacentRoutes : adjacencyMap) (toRoutes : List String) :
    List String → List String → Option (List String)
  | [], connections => some connections
  | fromRoute :: rest, connections =>
    match connectInner fuel adjacentRoutes fromRoute toRoutes connections with
    | none => none
    | some (connections1, true) => some connections1
    | some (_, false) => connectOuter fuel adjacentRoutes toRoutes rest []

/-- `getConnectingRoutes` with an explicit bound on the iterations of each
search loop and each predecessor walk. -/
def getConnectingRoutesFuel (fuel : Nat) (fromRoutes toRoutes : List String)
    (adjacentRoutes : adjacencyMap) : Option (List String) :=
  connectOuter fuel adjacentRoutes toRoutes fromRoutes []

/-- Given potential starting and destination routes, find the set of routes
that connect them.  Every loop is given `searchFuel` iterations, which are
enough for it to end on every input. -/
def getConnectingRoutes (fromRoutes toRoutes : List String) (adjacentRoutes : adjacencyMap) :
    List String :=
  (getConnectingRoutesFuel (searchFuel adjacentRoutes) fromRoutes toRoutes adjacentRoutes).getD []

/-! ## Stop and route index -/

/-- Struct to marshal individual route data; `LongName` is `Attributes.LongName`. -/
structure routeData where
  LongName : String
  ID : String
  deriving DecidableEq, Repr

/-- Struct to marshal route query responses. -/
structure routesResponse where
  Data : List routeData
  deriving DecidableEq, Repr

/-- Struct to marshal individual stop data; `Name` is `Attributes.Name`. -/
structure stopResponseData where
  Name : String
  ID : String
  deriving DecidableEq, Repr

/-- Struct to marshal stop query responses. -/
structure stopsResponse where
  Data : List stopResponseData
  deriving DecidableEq, Repr

/-- Struct to store the name of a stop and the routes that its on. -/
structure stopData where
  name : String
  routes : List String
  deriving DecidableEq, Repr

/-- Alias for map from stop id to stop data; a key that is missing reads as
the nil pointer. -/
abbrev stopMap := GoMap stopData

/-- The result of `queryRouteStops` for each route ID: the stop feed. -/
abbrev StopFeed := String → Except String stopsResponse

/-- The statement `if !contains(adj[a], b) { adj[a] = append(adj[a], b) }`. -/
def addNeighbor (adjacentRoutes : adjacencyMap) (a b : String) : adjacencyMap :=
  if !contains (adjGet adjacentRoutes a) b then
    mapSet adjacentRoutes a (adjGet adjacentRoutes a ++ [b])
  else adjacentRoutes

/-- The loop `for _, curRoute := range stops[stopName].routes` that adjusts
the route adjacency list. -/
def linkRoutes (routeName : String) : List String → adjacencyMap → adjacencyMap
  | [], adjacentRoutes => adjacentRoutes
  | curRoute :: rest, adjacentRoutes =>
    if curRoute = routeName then linkRoutes routeName rest adjacentRoutes
    else
      linkRoutes routeName rest
        (addNeighbor (addNeighbor adjacentRoutes curRoute routeName) routeName curRoute)

/-- Field read `stops[stopName].routes`; the nil slice when there is no record. -/
def stopRoutes (stops : stopMap) (stopName : String) : List String :=
  match mapGet? stops stopName with
  | some sd => sd.routes
  | none => []

/-- Create the record of the stop when it is missing and append the route to
the routes of the stop. -/
def addStopRoute (stops : stopMap) (stopName routeName : String) : stopMap :=
  let stops1 :=
    if (mapGet? stops stopName).isNone then mapSet stops stopName ⟨stopName, []⟩ else stops
  match mapGet? stops1 stopName with
  | some sd => mapSet stops1 stopName ⟨sd.name, sd.routes ++ [routeName]⟩
  | none => stops1

/-- The loop `for _, stop := range routeStops.Data` of `getStopRoutes`. -/
def processStops (buildRouteAdjacencyMap : Bool) (routeName : String) :
    List stopResponseData → stopMap × adjacencyMap → stopMap × adjacencyMap
  | [], acc => acc
  | stop :: rest, (stops, adjacentRoutes) =>
    let stops1 := addStopRoute stops stop.Name routeName
    if !buildRouteAdjacencyMap then
      processStops buildRouteAdjacencyMap routeName rest (stops1, adjacentRoutes)
    else
      processStops buildRouteAdjacencyMap routeName rest
        (stops1, linkRoutes routeName (stopRoutes stops1 stop.Name) adjacentRoutes)

/-- The loop `for _, route := range routes.Data` of `getStopRoutes`; the last
component lists the route IDs that were queried, in order. -/
def getStopRoutesLoop (fetch : StopFeed) (buildRouteAdjacencyMap : Bool) :
    List routeData → stopMap × adjacencyMap → List String →
      Except String (stopMap × adjacencyMap) × List String
  | [], acc, queried => (.ok acc, queried)
  | route :: rest, acc, queried =>
    match fetch route.ID with
    | .error err => (.error err, queried ++ [route.ID])
    | .ok routeStops =>
      getStopRoutesLoop fetch buildRouteAdjacencyMap rest
        (processStops buildRouteAdjacencyMap route.LongName routeStops.Data acc)
        (queried ++ [route.ID])

/-- For every route in the API response, create a mapping of stops to the
routes they are on; if `buildRouteAdjacencyMap` is true, also construct the
route adjacency list.  Returns the result and the route IDs queried. -/
def getStopRoutes (fetch : StopFeed) (routes : routesResponse)
    (buildRouteAdjacencyMap : Bool) : Except String (stopMap × adjacencyMap) × List String :=
  getStopRoutesLoop fetch buildRouteAdjacencyMap routes.Data ([], []) []

/-! ## Stop counts -/

/-- The loop `for _, route := range routes.Data` of `getStopCounts`; the last
component lists the route IDs that were queried, in order. -/
def getStopCountsLoop (fetch : StopFeed) :
    List routeData → GoMap Nat → List String → Except String (GoMap Nat) × List String
  | [], stopCounts, queried => (.ok stopCounts, queried)
  | route :: rest, stopCounts, queried =>
    match fetch route.ID with
    | .error err => (.error err, queried ++ [route.ID])
    | .ok routeStops =>
      getStopCountsLoop fetch rest
        (mapSet stopCounts route.LongName routeStops.Data.length) (queried ++ [route.ID])

/-- For every route in the API response, count all the stops for the route;
returns a map from route long name to stop counts, `.error err` for
`return nil, err`, and the route IDs queried. -/
def getStopCounts (fetch : StopFeed) (routes : routesResponse) :
    Except String (GoMap Nat) × List String :=
  getStopCountsLoop fetch routes.Data [] []

/-- The constant `math.MaxInt32`. -/
def MaxInt32 : Nat := 2147483647

/-- The loop `for k, v := range stopCounts` of `getRouteByStopCount`, over the
entries in the order in which they are visited; the state is `route` and
`stopCount`. -/
def pickRoute (fewest : Bool) : List (String × Nat) → String × Nat → String × Nat
  | [], acc => acc
  | (k, v) :: rest, (route, stopCount) =>
    if (fewest && decide (v < stopCount)) || (!fewest && decide (v > stopCount)) then
      pickRoute fewest rest (k, v)
    else pickRoute fewest rest (route, stopCount)

/-- For every route in the API response, find the route with the most or
fewest stops; returns the route, its count and the error (`none` for `nil`),
and the route IDs queried.  Go does not specify the order in which `range`
visits the entries of a map: `rangeOrder` gives the order in which the loop
visits the entries of `stopCounts`. -/
def getRouteByStopCount (fetch : StopFeed) (rangeOrder : GoMap Nat → List (String × Nat))
    (routes : routesResponse) (fewest : Bool) :
    (String × Nat × Option String) × List String :=
  match getStopCounts fetch routes with
  | (.error _, queried) => (("", 0, none), queried)
  | (.ok stopCounts, queried) =>
    let (route, stopCount) :=
      pickRoute fewest (rangeOrder stopCounts) ("", if fewest then MaxInt32 else 0)
    ((route, stopCount, none), queried)

/-- The stop feed of the test of `getStopRoutes`: `stop1` and `stop2` for the
route with ID `red`, `stop1` for the route with ID `orange`. -/
def testFeed : StopFeed := fun routeID =>
  if routeID = "red" then .ok ⟨[⟨"stop1", ""⟩, ⟨"stop2", ""⟩]⟩
  else if routeID = "orange" then .ok ⟨[⟨"stop1", ""⟩]⟩
  else .error "unknown route"

/-- The route list of the test of `getStopRoutes`. -/
def testRoutes : routesResponse := ⟨[⟨"Red Line", "red"⟩, ⟨"Orange Line", "orange"⟩]⟩

/-! ## Specification vocabulary -/

/-- The graph has an edge from `x` to `y`: `y` is listed in `adjacentRoutes[x]`. -/
def Edge (adjacentRoutes : adjacencyMap) (x y : String) : Prop := y ∈ adjGet adjacentRoutes x

/-- The list `p` is a directed path of the graph from `src` to `dest`: it starts
at `src`, ends at `dest`, and each route is listed as adjacent to the one before. -/
def IsRoutePath (adjacentRoutes : adjacencyMap) (src dest : String) (p : List String) : Prop :=
  p.head? = some src ∧ p.getLast? = some dest ∧ p.Chain' (Edge adjacentRoutes)

/-- Route `dest` can be reached from `src` along edges of the graph. -/
def Reachable (adjacentRoutes : adjacencyMap) (src dest : String) : Prop :=
  ∃ p, IsRoutePath adjacentRoutes src dest p

/-- The number of possible children that are not yet marked visited. -/
def unvisitedCount (adjacentRoutes : adjacencyMap) (visited : GoMap Bool) : Nat :=
  ((allChildren adjacentRoutes).dedup.filter (fun v => !visitedGet visited v)).length

/-- The termination measure of the search loop. -/
def bfsMeasure (adjacentRoutes : adjacencyMap) (s : BfsState) : Nat :=
  s.queue.length + unvisitedCount adjacentRoutes s.visited

/-- The invariant of the scan of the children of `cur`, with `rem` the children
still to look at and `d` the depth at which each visited route was found. -/
structure ScanInv (adjacentRoutes : adjacencyMap) (src : String) (d : String → Nat)
    (s : BfsState) (cur : String) (rem : List String) : Prop where
  d_src : d src = 0
  vis_src : visitedGet s.visited src = true
  vis_iff : ∀ v, visitedGet s.visited v = true ↔ v = src ∨ (mapGet? s.parents v).isSome = true
  par : ∀ v u, mapGet? s.parents v = some u →
    v ≠ src ∧ visitedGet s.visited u = true ∧ Edge adjacentRoutes u v ∧ d v = d u + 1
  cur_vis : visitedGet s.visited cur = true
  queue_vis : ∀ x ∈ s.queue, visitedGet s.visited x = true
  sorted : (cur :: s.queue).Pairwise (fun a b => d a ≤ d b)
  bound : ∀ v, visitedGet s.visited v = true → d v ≤ d cur + 1
  closed : ∀ u, visitedGet s.visited u = true → u ≠ cur → u ∉ s.queue →
    ∀ w ∈ adjGet adjacentRoutes u, visitedGet s.visited w = true ∧ d w ≤ d u + 1
  done : ∀ w ∈ adjGet adjacentRoutes cur, w ∉ rem → visitedGet s.visited w = true
  rem_sub : ∀ w ∈ rem, w ∈ adjGet adjacentRoutes cur

/-- What a non-empty result of the search is: a predecessor tree rooted at
`src` that holds `dest` at its least possible depth. -/
def FoundTree (adjacentRoutes : adjacencyMap) (src dest : String) (r : GoMap String) : Prop :=
  ∃ d : String → Nat, d src = 0 ∧ r ≠ [] ∧ src ≠ dest ∧ (mapGet? r dest).isSome = true ∧
    (∀ v u, mapGet? r v = some u →
      v ≠ src ∧ (u = src ∨ (mapGet? r u).isSome = true) ∧ Edge adjacentRoutes u v ∧
        d v = d u + 1) ∧
    ∀ l, List.Chain (Edge adjacentRoutes) src l → l.getLastD src = dest → d dest ≤ l.length

/-- What the search returns: nothing when `dest` is `src` or out of reach, a
predecessor tree otherwise. -/
def SearchPost (adjacentRoutes : adjacencyMap) (src dest : String) (r : GoMap String) : Prop :=
  (r = [] ∧ (src = dest ∨ ¬ Reachable adjacentRoutes src dest)) ∨
    FoundTree adjacentRoutes src dest r

/-- The invariant at the head of the search loop. -/
def HeadInv (adjacentRoutes : adjacencyMap) (src dest : String) (s : BfsState) : Prop :=
  ∃ d : String → Nat,
    (visitedGet s.visited dest = true → dest = src) ∧
    visitedGet s.visited src = true ∧
    (∀ x ∈ s.queue, visitedGet s.visited x = true) ∧
    (s.queue = [] → ∀ u, visitedGet s.visited u = true →
      ∀ w ∈ adjGet adjacentRoutes u, visitedGet s.visited w = true) ∧
    ∀ x rest, s.queue = x :: rest →
      ScanInv adjacentRoutes src d ⟨s.parents, mapSet s.visited x true, rest⟩ x
        (adjGet adjacentRoutes x)

/-- The list `p` is a path from `src` to `dest` and no path from `src` to
`dest` has fewer routes, that is fewer edges. -/
def IsShortestRoutePath (adjacentRoutes : adjacencyMap) (src dest : String)
    (p : List String) : Prop :=
  IsRoutePath adjacentRoutes src dest p ∧
    ∀ q, IsRoutePath adjacentRoutes src dest q → p.length ≤ q.length

/-- Routes `f` and `t` are connected: they are the same route or `t` can be
reached from `f` in the graph. -/
def Connected (adjacentRoutes : adjacencyMap) (f t : String) : Prop :=
  f = t ∨ Reachable adjacentRoutes f t

/-- The pair `(f, t)` is the first connected pair in the order in which
`getConnectingRoutes` tries them: `fromRoutes` in the outer loop, `toRoutes`
in the inner loop. -/
def FirstPair (adjacentRoutes : adjacencyMap) (fromRoutes toRoutes : List String)
    (f t : String) : Prop :=
  ∃ fs1 fs2 ts1 ts2, fromRoutes = fs1 ++ f :: fs2 ∧ toRoutes = ts1 ++ t :: ts2 ∧
    (∀ f' ∈ fs1, ∀ t' ∈ toRoutes, ¬ Connected adjacentRoutes f' t') ∧
    (∀ t' ∈ ts1, ¬ Connected adjacentRoutes f t') ∧ Connected adjacentRoutes f t

instance (adjacentRoutes : adjacencyMap) : DecidableRel (Edge adjacentRoutes) :=
  fun x y => inferInstanceAs (Decidable (y ∈ adjGet adjacentRoutes x))

/-- Some route of the list with long name `A` has a stop named `s` in the stop
list that the feed returns for it. -/
def ServesStop (fetch : StopFeed) (routes : routesResponse) (A s : String) : Prop :=
  ∃ r ∈ routes.Data, r.LongName = A ∧
    ∃ resp, fetch r.ID = .ok resp ∧ ∃ st ∈ resp.Data, st.Name = s

/-- The (route name, stop name) pairs of a stop list. -/
def stopEvents (routeName : String) (stopList : List stopResponseData) :
    List (String × String) :=
  stopList.map (fun st => (routeName, st.Name))

/-- The (route name, stop name) pairs in the order `getStopRoutes` goes
through them. -/
def allEvents (fetch : StopFeed) (routes : List routeData) : List (String × String) :=
  routes.flatMap (fun r =>
    match fetch r.ID with
    | .ok resp => stopEvents r.LongName resp.Data
    | .error _ => [])

/-- The stop map lists for each stop the routes of the pairs seen, in order. -/
def StopsInv (stops : stopMap) (E : List (String × String)) : Prop :=
  ∀ s, stopRoutes stops s = (E.filter (fun e => e.2 = s)).map Prod.fst

/-- The adjacency map has an edge for exactly the pairs of different routes
that share a stop among the pairs seen, and no key with an empty list. -/
def AdjInv (adjacentRoutes : adjacencyMap) (E : List (String × String)) : Prop :=
  (∀ A B, B ∈ adjGet adjacentRoutes A ↔ A ≠ B ∧ ∃ s, (A, s) ∈ E ∧ (B, s) ∈ E) ∧
    ∀ A l, mapGet? adjacentRoutes A = some l → l ≠ []

/-- No adjacency list of the map lists a route twice. -/
def AdjNodup (adjacentRoutes : adjacencyMap) : Prop :=
  ∀ A l, mapGet? adjacentRoutes A = some l → l.Nodup

/-- The order `rangeOrder` is one in which `range` can visit a map: it lists
the entries of the map, each once. -/
def IsRangeOrder (rangeOrder : GoMap Nat → List (String × Nat)) : Prop :=
  ∀ m, (rangeOrder m).Perm m

/-- The number of stops in the stop list that the feed returns for a route. -/
def stopCountOf (fetch : StopFeed) (r : routeData) : Nat :=
  match fetch r.ID with
  | .ok resp => resp.Data.length
  | .error _ => 0

/-- The last route of the list with the long name `name`. -/
def lastRouteNamed (routes : List routeData) (name : String) : Option routeData :=
  (routes.filter (fun r => r.LongName = name)).getLast?

/-- A stop feed in which every fetch fails. -/
def failingFeed : StopFeed := fun _ => .error "fetch failed"

/-- The test of the loop of `getRouteByStopCount`: the entry value `v` replaces
the current `stopCount`. -/
def beats (fewest : Bool) (v stopCount : Nat) : Bool :=
  (fewest && decide (v < stopCount)) || (!fewest && decide (v > stopCount))

/-- A stop feed that returns the stops with the given names for every route. -/
def countFeed (stopNames : List String) : StopFeed :=
  fun _ => .ok ⟨stopNames.map (fun n => ⟨n, ""⟩)⟩

/-- The stop list that the feed returns for the route has a stop named `s`. -/
def routeHasStop (fetch : StopFeed) (r : routeData) (s : String) : Bool :=
  match fetch r.ID with
  | .ok resp => decide (s ∈ resp.Data.map (fun st => st.Name))
  | .error _ => false

/-- The keys of the stop map are the stops of the pairs seen, and each record
is named after its key. -/
def StopKeysInv (stops : stopMap) (E : List (String × String)) : Prop :=
  (∀ s sd, mapGet? stops s = some sd → sd.name = s) ∧
    ∀ s, (mapGet? stops s).isSome = true ↔ ∃ A, (A, s) ∈ E

end MBTA

namespace MBTA


/-! ## Map lemmas -/

theorem mapGet?_mapSet_self {β : Type} (m : GoMap β) (k : String) (v : β) :
    mapGet? (mapSet m k v) k = some v := by
  induction m with
  | nil => simp [mapSet, mapGet?]
  | cons kv m ih =>
    obtain ⟨k', v'⟩ := kv
    by_cases h : k' = k
    · simp [mapSet, mapGet?, h]
    · simp [mapSet, mapGet?, h, ih]

theorem mapGet?_mapSet_ne {β : Type} (m : GoMap β) (k k' : String) (v : β) (h : k ≠ k') :
    mapGet? (mapSet m k v) k' = mapGet? m k' := by
  induction m with
  | nil => simp [mapSet, mapGet?, h]
  | cons kv m ih =>
    obtain ⟨k₀, v₀⟩ := kv
    by_cases h₀ : k₀ = k
    · subst h₀
      simp [mapSet, mapGet?, h]
    · simp only [mapSet, h₀, if_false, mapGet?, ih]

theorem mapSet_ne_nil {β : Type} (m : GoMap β) (k : String) (v : β) : mapSet m k v ≠ [] := by
  cases m with
  | nil => simp [mapSet]
  | cons kv m =>
    obtain ⟨k', v'⟩ := kv
    by_cases h : k' = k <;> simp [mapSet, h]

theorem visitedGet_mapSet_self (m : GoMap Bool) (k : String) (b : Bool) :
    visitedGet (mapSet m k b) k = b := by
  simp [visitedGet, mapGet?_mapSet_self]

theorem visitedGet_mapSet_ne (m : GoMap Bool) (k k' : String) (b : Bool) (h : k ≠ k') :
    visitedGet (mapSet m k b) k' = visitedGet m k' := by
  simp [visitedGet, mapGet?_mapSet_ne _ _ _ _ h]

theorem visitedGet_mapSet_true (m : GoMap Bool) (k : String) (h : visitedGet m k = true)
    (v : String) : visitedGet (mapSet m k true) v = visitedGet m v := by
  by_cases hk : k = v
  · subst hk; rw [visitedGet_mapSet_self, h]
  · exact visitedGet_mapSet_ne _ _ _ _ hk

theorem visitedGet_initVisited (G : adjacencyMap) (vis : GoMap Bool)
    (h : ∀ k, visitedGet vis k = false) : ∀ k, visitedGet (initVisited G vis) k = false := by
  induction G generalizing vis with
  | nil => simpa [initVisited] using h
  | cons kv G ih =>
    obtain ⟨k', v'⟩ := kv
    intro k
    apply ih
    intro k₁
    by_cases hk : k' = k₁
    · subst hk; exact visitedGet_mapSet_self _ _ _
    · rw [visitedGet_mapSet_ne _ _ _ _ hk]; exact h k₁

theorem adjGet_subset_allChildren (G : adjacencyMap) (x : String) :
    ∀ w ∈ adjGet G x, w ∈ allChildren G := by
  induction G with
  | nil => simp [adjGet, mapGet?]
  | cons kv G ih =>
    obtain ⟨k, v⟩ := kv
    intro w hw
    by_cases hk : k = x
    · simp [adjGet, mapGet?, hk] at hw
      simp [allChildren, hw]
    · have : w ∈ adjGet G x := by simpa [adjGet, mapGet?, hk] using hw
      have := ih w this
      simp only [allChildren, List.flatMap_cons, List.mem_append] at this ⊢
      exact Or.inr this

theorem adjGet_mem_keys (G : adjacencyMap) (x w : String) (h : w ∈ adjGet G x) :
    x ∈ mapKeys G := by
  induction G with
  | nil => simp [adjGet, mapGet?] at h
  | cons kv G ih =>
    obtain ⟨k, v⟩ := kv
    by_cases hk : k = x
    · simp [mapKeys, hk]
    · have : w ∈ adjGet G x := by simpa [adjGet, mapGet?, hk] using h
      have := ih this
      simp only [mapKeys, List.mem_dedup, List.map_cons, List.mem_cons] at this ⊢
      exact Or.inr this

/-! ## The termination measure -/

theorem filter_length_visit (l : List String) (c : String) (p q : String → Bool)
    (hl : l.Nodup) (hc : c ∈ l) (hp : p c = true) (hq : q c = false)
    (hpq : ∀ v, v ≠ c → q v = p v) : (l.filter q).length + 1 = (l.filter p).length := by
  induction l with
  | nil => simp at hc
  | cons a l ih =>
    rw [List.nodup_cons] at hl
    by_cases ha : a = c
    · subst ha
      have : l.filter q = l.filter p := by
        apply List.filter_congr
        intro x hx
        apply hpq
        rintro rfl
        exact hl.1 hx
      simp [List.filter_cons, hp, hq, this]
    · have hc' : c ∈ l := by
        rcases List.mem_cons.1 hc with h | h
        · exact absurd h.symm ha
        · exact h
      have := ih hl.2 hc'
      rw [List.filter_cons, List.filter_cons, hpq a ha]
      by_cases hpa : p a = true
      · simp [hpa]; omega
      · simp [hpa]; omega

theorem unvisitedCount_congr (G : adjacencyMap) (vis vis' : GoMap Bool)
    (h : ∀ v, visitedGet vis' v = visitedGet vis v) :
    unvisitedCount G vis' = unvisitedCount G vis := by
  unfold unvisitedCount
  congr 1
  apply List.filter_congr
  intro x _
  rw [h]

theorem unvisitedCount_visit (G : adjacencyMap) (vis : GoMap Bool) (c : String)
    (hc : c ∈ allChildren G) (hv : visitedGet vis c = false) :
    unvisitedCount G (mapSet vis c true) + 1 = unvisitedCount G vis := by
  unfold unvisitedCount
  apply filter_length_visit _ c
  · exact List.nodup_dedup _
  · exact List.mem_dedup.2 hc
  · simp [hv]
  · simp [visitedGet_mapSet_self]
  · intro v hvc
    rw [visitedGet_mapSet_ne _ _ _ _ (Ne.symm hvc)]

theorem unvisitedCount_le (G : adjacencyMap) (vis : GoMap Bool) :
    unvisitedCount G vis ≤ (allChildren G).length := by
  unfold unvisitedCount
  exact (List.length_filter_le _ _).trans (List.dedup_sublist _).length_le

/-! ## The invariant of the search -/

theorem ScanInv.skip {G : adjacencyMap} {src : String} {d : String → Nat} {s : BfsState}
    {cur c : String} {rest : List String} (h : ScanInv G src d s cur (c :: rest))
    (hc : visitedGet s.visited c = true) : ScanInv G src d s cur rest := by
  refine { h with done := ?_, rem_sub := ?_ }
  · intro w hw hwr
    by_cases hwc : w = c
    · subst hwc; exact hc
    · exact h.done w hw (by simp [hwc, hwr])
  · intro w hw
    exact h.rem_sub w (List.mem_cons_of_mem _ hw)

theorem ScanInv.visit {G : adjacencyMap} {src : String} {d : String → Nat} {s : BfsState}
    {cur c : String} {rest : List String} (h : ScanInv G src d s cur (c :: rest))
    (hc : visitedGet s.visited c = false) :
    ScanInv G src (fun v => if v = c then d cur + 1 else d v)
      ⟨mapSet s.parents c cur, mapSet s.visited c true, s.queue ++ [c]⟩ cur rest := by
  have hne : ∀ v, visitedGet s.visited v = true → v ≠ c := by
    rintro v hv rfl
    rw [hc] at hv
    exact Bool.noConfusion hv
  have hsrc : src ≠ c := hne _ h.vis_src
  have hcur : cur ≠ c := hne _ h.cur_vis
  have hvis : ∀ v, visitedGet (mapSet s.visited c true) v = true ↔
      v = c ∨ visitedGet s.visited v = true := by
    intro v
    by_cases hv : c = v
    · subst hv; simp [visitedGet_mapSet_self]
    · rw [visitedGet_mapSet_ne _ _ _ _ hv]
      simp [Ne.symm hv]
  constructor
  · simp [hsrc, h.d_src]
  · exact (hvis src).2 (Or.inr h.vis_src)
  · intro v
    show visitedGet (mapSet s.visited c true) v = true ↔
      v = src ∨ (mapGet? (mapSet s.parents c cur) v).isSome = true
    by_cases hv : c = v
    · subst hv
      simp [visitedGet_mapSet_self, mapGet?_mapSet_self]
    · rw [visitedGet_mapSet_ne _ _ _ _ hv, mapGet?_mapSet_ne _ _ _ _ hv]
      exact h.vis_iff v
  · intro v u hvu
    change mapGet? (mapSet s.parents c cur) v = some u at hvu
    show v ≠ src ∧ visitedGet (mapSet s.visited c true) u = true ∧ Edge G u v ∧ _
    by_cases hv : c = v
    · subst hv
      rw [mapGet?_mapSet_self] at hvu
      obtain rfl : cur = u := by simpa using hvu
      refine ⟨Ne.symm hsrc, (hvis _).2 (Or.inr h.cur_vis), h.rem_sub _ (List.mem_cons_self _ _), ?_⟩
      simp [hcur]
    · rw [mapGet?_mapSet_ne _ _ _ _ hv] at hvu
      obtain ⟨h1, h2, h3, h4⟩ := h.par v u hvu
      refine ⟨h1, (hvis _).2 (Or.inr h2), h3, ?_⟩
      simp [Ne.symm hv, hne u h2, h4]
  · exact (hvis cur).2 (Or.inr h.cur_vis)
  · intro x hx
    show visitedGet (mapSet s.visited c true) x = true
    rcases List.mem_append.1 hx with hx | hx
    · exact (hvis x).2 (Or.inr (h.queue_vis x hx))
    · simp at hx
      exact (hvis x).2 (Or.inl hx)
  · show (cur :: (s.queue ++ [c])).Pairwise _
    rw [← List.cons_append, List.pairwise_append]
    refine ⟨?_, by simp, ?_⟩
    · refine h.sorted.imp_of_mem ?_
      intro a b ha hb hab
      have hva : visitedGet s.visited a = true := by
        rcases List.mem_cons.1 ha with rfl | ha
        · exact h.cur_vis
        · exact h.queue_vis a ha
      have hvb : visitedGet s.visited b = true := by
        rcases List.mem_cons.1 hb with rfl | hb
        · exact h.cur_vis
        · exact h.queue_vis b hb
      simpa [hne a hva, hne b hvb] using hab
    · intro a ha b hb
      obtain rfl : b = c := by simpa using hb
      have hva : visitedGet s.visited a = true := by
        rcases List.mem_cons.1 ha with rfl | ha
        · exact h.cur_vis
        · exact h.queue_vis a ha
      simpa [hne a hva] using h.bound a hva
  · intro v hv
    rcases (hvis v).1 hv with rfl | hv
    · simp [hcur]
    · simpa [hne v hv, hcur] using h.bound v hv
  · intro u hu hucur huq w hw
    change u ∉ s.queue ++ [c] at huq
    have huc : u ≠ c := by
      rintro rfl
      exact huq (by simp)
    have hu' : visitedGet s.visited u = true := by
      rcases (hvis u).1 hu with rfl | hu
      · exact absurd rfl huc
      · exact hu
    obtain ⟨h1, h2⟩ := h.closed u hu' hucur (fun hq => huq (List.mem_append_left _ hq)) w hw
    refine ⟨(hvis w).2 (Or.inr h1), ?_⟩
    simpa [hne w h1, huc] using h2
  · intro w hw hwr
    show visitedGet (mapSet s.visited c true) w = true
    by_cases hwc : w = c
    · exact (hvis w).2 (Or.inl hwc)
    · exact (hvis w).2 (Or.inr (h.done w hw (by simp [hwc, hwr])))
  · intro w hw
    exact h.rem_sub w (List.mem_cons_of_mem _ hw)

theorem ScanInv.depth_step {G : adjacencyMap} {src : String} {d : String → Nat} {s : BfsState}
    {cur : String} {rem : List String} (h : ScanInv G src d s cur rem) :
    ∀ (l : List String) (a : String) (i : Nat),
      ((visitedGet s.visited a = true ∧ d a ≤ i) ∨ d cur + 1 ≤ i) →
      List.Chain (Edge G) a l →
      ((visitedGet s.visited (l.getLastD a) = true ∧ d (l.getLastD a) ≤ i + l.length) ∨
        d cur + 1 ≤ i + l.length) := by
  intro l
  induction l with
  | nil => intro a i hS _; simpa using hS
  | cons b l ih =>
    intro a i hS hch
    rw [List.chain_cons] at hch
    have hb : (visitedGet s.visited b = true ∧ d b ≤ i + 1) ∨ d cur + 1 ≤ i + 1 := by
      rcases hS with ⟨hva, hda⟩ | hS
      · by_cases hfront : a = cur ∨ a ∈ s.queue
        · right
          have : d cur ≤ d a := by
            rcases hfront with rfl | hq
            · exact le_rfl
            · exact (List.pairwise_cons.1 h.sorted).1 a hq
          omega
        · push_neg at hfront
          obtain ⟨h1, h2⟩ := h.closed a hva hfront.1 hfront.2 b hch.1
          left
          exact ⟨h1, by omega⟩
      · right; omega
    have := ih b (i + 1) hb hch.2
    simp only [List.getLastD_cons, List.length_cons]
    rcases this with ⟨h1, h2⟩ | h2
    · left; exact ⟨h1, by omega⟩
    · right; omega

theorem ScanInv.depth_min {G : adjacencyMap} {src : String} {d : String → Nat} {s : BfsState}
    {cur : String} {rem : List String} (h : ScanInv G src d s cur rem) (w : String)
    (hw : visitedGet s.visited w = true) (l : List String)
    (hl : List.Chain (Edge G) src l) (hlast : l.getLastD src = w) : d w ≤ l.length := by
  have := h.depth_step l src 0 (Or.inl ⟨h.vis_src, by simp [h.d_src]⟩) hl
  rw [hlast] at this
  rcases this with ⟨_, h2⟩ | h2
  · simpa using h2
  · have := h.bound w hw
    omega

theorem ScanInv.found {G : adjacencyMap} {src : String} {d : String → Nat} {s : BfsState}
    {cur : String} {rem : List String} (h : ScanInv G src d s cur rem) (dest : String)
    (hd : visitedGet s.visited dest = true) (hne : src ≠ dest) (hp : s.parents ≠ []) :
    FoundTree G src dest s.parents := by
  refine ⟨d, h.d_src, hp, hne, ?_, ?_, ?_⟩
  · rcases (h.vis_iff dest).1 hd with h1 | h1
    · exact absurd h1.symm hne
    · exact h1
  · intro v u hvu
    obtain ⟨h1, h2, h3, h4⟩ := h.par v u hvu
    exact ⟨h1, (h.vis_iff u).1 h2, h3, h4⟩
  · intro l hl hlast
    exact h.depth_min dest hd l hl hlast

theorem scanChildren_spec (G : adjacencyMap) (src dest cur : String) :
    ∀ (rem : List String) (s : BfsState) (d : String → Nat),
      ScanInv G src d s cur rem → (visitedGet s.visited dest = true → dest = src) →
      ((scanChildren dest cur rem s).2 = false ∧
        (∃ d', ScanInv G src d' (scanChildren dest cur rem s).1 cur []) ∧
        (visitedGet (scanChildren dest cur rem s).1.visited dest = true → dest = src) ∧
        bfsMeasure G (scanChildren dest cur rem s).1 = bfsMeasure G s) ∨
      ((scanChildren dest cur rem s).2 = true ∧
        FoundTree G src dest (scanChildren dest cur rem s).1.parents) := by
  intro rem
  induction rem with
  | nil =>
    intro s d h hd
    left
    exact ⟨rfl, ⟨d, h⟩, hd, rfl⟩
  | cons c rest ih =>
    intro s d h hd
    by_cases hc : visitedGet s.visited c = true
    · have : scanChildren dest cur (c :: rest) s = scanChildren dest cur rest s := by
        simp [scanChildren, hc]
      rw [this]
      exact ih s d (h.skip hc) hd
    · have hc' : visitedGet s.visited c = false := by simpa using hc
      have hinv := h.visit hc'
      by_cases hcd : c = dest
      · right
        subst hcd
        have : scanChildren c cur (c :: rest) s =
            (⟨mapSet s.parents c cur, mapSet s.visited c true, s.queue ++ [c]⟩, true) := by
          simp [scanChildren, hc']
        rw [this]
        refine ⟨rfl, ?_⟩
        have hsd : src ≠ c := by
          rintro rfl
          have := h.vis_src
          rw [hc'] at this
          exact Bool.noConfusion this
        exact hinv.found c (visitedGet_mapSet_self _ _ _) hsd (mapSet_ne_nil _ _ _)
      · have : scanChildren dest cur (c :: rest) s =
            scanChildren dest cur rest
              ⟨mapSet s.parents c cur, mapSet s.visited c true, s.queue ++ [c]⟩ := by
          simp [scanChildren, hc', hcd]
        rw [this]
        have hd' : visitedGet (mapSet s.visited c true) dest = true → dest = src := by
          rw [visitedGet_mapSet_ne _ _ _ _ hcd]
          exact hd
        have hm : bfsMeasure G ⟨mapSet s.parents c cur, mapSet s.visited c true, s.queue ++ [c]⟩ =
            bfsMeasure G s := by
          have := unvisitedCount_visit G s.visited c
            (adjGet_subset_allChildren G cur c (h.rem_sub c (List.mem_cons_self _ _))) hc'
          simp only [bfsMeasure, List.length_append, List.length_singleton]
          omega
        rcases ih _ _ hinv hd' with ⟨h1, h2, h3, h4⟩ | h1
        · left
          exact ⟨h1, h2, h3, h4.trans hm⟩
        · right
          exact h1

theorem reachable_visited (G : adjacencyMap) (vis : GoMap Bool)
    (hcl : ∀ u, visitedGet vis u = true → ∀ w ∈ adjGet G u, visitedGet vis w = true) :
    ∀ (l : List String) (a : String), visitedGet vis a = true → List.Chain (Edge G) a l →
      visitedGet vis (l.getLastD a) = true := by
  intro l
  induction l with
  | nil => intro a ha _; simpa using ha
  | cons b l ih =>
    intro a ha hch
    rw [List.chain_cons] at hch
    rw [List.getLastD_cons]
    exact ih b (hcl a ha b hch.1) hch.2

theorem isRoutePath_iff_chain (G : adjacencyMap) (src dest : String) (p : List String) :
    IsRoutePath G src dest p ↔
      ∃ l, p = src :: l ∧ List.Chain (Edge G) src l ∧ l.getLastD src = dest := by
  constructor
  · rintro ⟨h1, h2, h3⟩
    cases p with
    | nil => simp at h1
    | cons a l =>
      obtain rfl : a = src := by simpa using h1
      refine ⟨l, rfl, h3, ?_⟩
      rw [List.getLast?_cons] at h2
      cases l with
      | nil => simpa using h2
      | cons b l =>
        simp only [List.getLastD_cons]
        simpa [List.getLast?_cons, List.getLastD_eq_getLast?] using h2
  · rintro ⟨l, rfl, h2, h3⟩
    refine ⟨rfl, ?_, h2⟩
    rw [List.getLast?_cons, ← h3]
    simp [List.getLastD_eq_getLast?]

theorem HeadInv.of_scan_end {G : adjacencyMap} {src dest : String} {d : String → Nat}
    {s : BfsState} {cur : String} (h : ScanInv G src d s cur [])
    (hd : visitedGet s.visited dest = true → dest = src) : HeadInv G src dest s := by
  refine ⟨d, hd, h.vis_src, h.queue_vis, ?_, ?_⟩
  · intro hq u hu w hw
    by_cases huc : u = cur
    · subst huc
      exact h.done w hw (by simp)
    · exact (h.closed u hu huc (by simp [hq]) w hw).1
  · intro x rest hq
    have hx : visitedGet s.visited x = true := h.queue_vis x (by simp [hq])
    have hv := visitedGet_mapSet_true s.visited x hx
    have hsorted := h.sorted
    rw [hq, List.pairwise_cons, List.pairwise_cons] at hsorted
    have hcx : d cur ≤ d x := hsorted.1 x (by simp)
    constructor
    · exact h.d_src
    · show visitedGet (mapSet s.visited x true) src = true
      rw [hv]; exact h.vis_src
    · intro v
      show visitedGet (mapSet s.visited x true) v = true ↔ _
      rw [hv]; exact h.vis_iff v
    · intro v u hvu
      show _ ∧ visitedGet (mapSet s.visited x true) u = true ∧ _
      rw [hv]; exact h.par v u hvu
    · show visitedGet (mapSet s.visited x true) x = true
      rw [hv]; exact hx
    · intro y hy
      show visitedGet (mapSet s.visited x true) y = true
      rw [hv]; exact h.queue_vis y (by simp [hq, hy])
    · exact List.pairwise_cons.2 hsorted.2
    · intro v hvv
      change visitedGet (mapSet s.visited x true) v = true at hvv
      rw [hv] at hvv
      have := h.bound v hvv
      omega
    · intro u hu hux hur w hw
      change visitedGet (mapSet s.visited x true) u = true at hu
      change u ∉ rest at hur
      show visitedGet (mapSet s.visited x true) w = true ∧ _
      rw [hv] at hu ⊢
      by_cases huc : u = cur
      · subst huc
        have hw' := h.done w hw (by simp)
        exact ⟨hw', h.bound w hw'⟩
      · exact h.closed u hu huc (by simp [hq, hux, hur]) w hw
    · intro w hw hwn
      exact absurd hw hwn
    · intro w hw
      exact hw

theorem HeadInv.init (G : adjacencyMap) (src dest : String) :
    HeadInv G src dest (bfsInit src G) := by
  have hv : ∀ v, visitedGet (bfsInit src G).visited v = true ↔ v = src := by
    intro v
    show visitedGet (mapSet (initVisited G []) src true) v = true ↔ _
    by_cases h : src = v
    · subst h; simp [visitedGet_mapSet_self]
    · rw [visitedGet_mapSet_ne _ _ _ _ h,
        visitedGet_initVisited G [] (fun k => by simp [visitedGet, mapGet?])]
      simp [Ne.symm h]
  have hsrc : visitedGet (bfsInit src G).visited src = true := (hv src).2 rfl
  refine ⟨fun _ => 0, fun h => (hv dest).1 h, hsrc, ?_, ?_, ?_⟩
  · intro x hx
    obtain rfl : x = src := by simpa [bfsInit] using hx
    exact hsrc
  · intro hq
    simp [bfsInit] at hq
  · intro x rest hq
    obtain ⟨rfl, rfl⟩ : src = x ∧ [] = rest := by simpa [bfsInit] using hq
    have hv' := visitedGet_mapSet_true _ src hsrc
    constructor
    · rfl
    · show visitedGet (mapSet _ src true) src = true
      rw [hv']; exact hsrc
    · intro v
      show visitedGet (mapSet _ src true) v = true ↔ v = src ∨ (mapGet? [] v).isSome = true
      rw [hv', hv]
      simp [mapGet?]
    · intro v u hvu
      change mapGet? [] v = some u at hvu
      simp [mapGet?] at hvu
    · show visitedGet (mapSet _ src true) src = true
      rw [hv']; exact hsrc
    · intro y hy
      simp at hy
    · simp
    · intro v _
      simp
    · intro u hu hux
      change visitedGet (mapSet _ src true) u = true at hu
      rw [hv', hv] at hu
      exact absurd hu hux
    · intro w hw hwn
      exact absurd hw hwn
    · intro w hw
      exact hw

/-! ## The search loop terminates and meets its postcondition -/

theorem bfsLoop_spec (G : adjacencyMap) (src dest : String) :
    ∀ (n : Nat) (s : BfsState), HeadInv G src dest s → bfsMeasure G s < n →
      ∃ r, bfsLoop dest G n s = some r ∧ SearchPost G src dest r := by
  intro n
  induction n with
  | zero => intro s _ hm; exact absurd hm (Nat.not_lt_zero _)
  | succ n ih =>
    intro s hinv hm
    obtain ⟨par, vis, q⟩ := s
    obtain ⟨d, hd, hsrc, hqv, hnil, hcons⟩ := hinv
    cases q with
    | nil =>
      refine ⟨[], by simp [bfsLoop], Or.inl ⟨rfl, ?_⟩⟩
      by_cases hsd : src = dest
      · exact Or.inl hsd
      · right
        rintro ⟨p, hp⟩
        obtain ⟨l, -, hch, hlast⟩ := (isRoutePath_iff_chain G src dest p).1 hp
        have := reachable_visited G vis (hnil rfl) l src hsrc hch
        rw [hlast] at this
        exact hsd (hd this).symm
    | cons x rest =>
      have hx : visitedGet vis x = true := hqv x (by simp)
      have hv := visitedGet_mapSet_true vis x hx
      have hscan := hcons x rest rfl
      have hd1 : visitedGet (mapSet vis x true) dest = true → dest = src := by
        rw [hv]; exact hd
      have hm1 : bfsMeasure G ⟨par, mapSet vis x true, rest⟩ < n := by
        have := unvisitedCount_congr G vis (mapSet vis x true) hv
        simp only [bfsMeasure, List.length_cons] at hm ⊢
        omega
      rcases hsc : scanChildren dest x (adjGet G x) ⟨par, mapSet vis x true, rest⟩ with ⟨s2, b⟩
      have hspec := scanChildren_spec G src dest x (adjGet G x) _ d hscan hd1
      rw [hsc] at hspec
      cases b with
      | false =>
        rcases hspec with ⟨-, ⟨d', h2⟩, h3, h4⟩ | ⟨h1, -⟩
        · obtain ⟨r, hr, hpost⟩ := ih s2 (HeadInv.of_scan_end h2 h3) (by rw [h4]; exact hm1)
          refine ⟨r, ?_, hpost⟩
          simp only [bfsLoop, hsc]
          exact hr
        · exact Bool.noConfusion h1
      | true =>
        rcases hspec with ⟨h1, -⟩ | ⟨-, h2⟩
        · exact Bool.noConfusion h1
        · refine ⟨s2.parents, ?_, Or.inr h2⟩
          simp only [bfsLoop, hsc]

theorem bfsLoop_mono (G : adjacencyMap) (dest : String) :
    ∀ (n : Nat) (s : BfsState) (r : GoMap String), bfsLoop dest G n s = some r →
      ∀ m, n ≤ m → bfsLoop dest G m s = some r := by
  intro n
  induction n with
  | zero => intro s r h; simp [bfsLoop] at h
  | succ n ih =>
    intro s r h m hm
    obtain ⟨m, rfl⟩ : ∃ m', m = m' + 1 := ⟨m - 1, by omega⟩
    obtain ⟨par, vis, q⟩ := s
    cases q with
    | nil => simpa [bfsLoop] using h
    | cons x rest =>
      rcases hsc : scanChildren dest x (adjGet G x) ⟨par, mapSet vis x true, rest⟩ with ⟨s2, b⟩
      cases b with
      | false =>
        simp only [bfsLoop, hsc] at h ⊢
        exact ih s2 r h m (by omega)
      | true =>
        simp only [bfsLoop, hsc] at h ⊢
        exact h

theorem bfsMeasure_init_lt (G : adjacencyMap) (src : String) :
    bfsMeasure G (bfsInit src G) < searchFuel G := by
  have := unvisitedCount_le G (bfsInit src G).visited
  simp only [bfsMeasure, searchFuel, bfsInit, List.length_singleton] at this ⊢
  omega

theorem buildTraversalFuel_eq (G : adjacencyMap) (src dest : String) (n : Nat)
    (hn : searchFuel G ≤ n) :
    buildTraversalFuel n src dest G = some (buildTraversal src dest G) := by
  obtain ⟨r, hr, -⟩ := bfsLoop_spec G src dest (searchFuel G) (bfsInit src G)
    (HeadInv.init G src dest) (bfsMeasure_init_lt G src)
  have h1 : buildTraversalFuel (searchFuel G) src dest G = some r := hr
  have h2 : buildTraversalFuel n src dest G = some r :=
    bfsLoop_mono G dest _ _ r hr n hn
  rw [h2, buildTraversal, h1]
  rfl

theorem buildTraversal_spec (G : adjacencyMap) (src dest : String) :
    SearchPost G src dest (buildTraversal src dest G) := by
  obtain ⟨r, hr, hpost⟩ := bfsLoop_spec G src dest (searchFuel G) (bfsInit src G)
    (HeadInv.init G src dest) (bfsMeasure_init_lt G src)
  have h1 : buildTraversalFuel (searchFuel G) src dest G = some r := hr
  rw [buildTraversal, h1]
  exact hpost

/-! ## Walking the predecessor tree -/

theorem walkBack_tree (G : adjacencyMap) (src : String) (r : GoMap String) (d : String → Nat)
    (hd : d src = 0)
    (htree : ∀ v u, mapGet? r v = some u →
      v ≠ src ∧ (u = src ∨ (mapGet? r u).isSome = true) ∧ Edge G u v ∧ d v = d u + 1) :
    ∀ (k : Nat) (v : String), (v = src ∨ (mapGet? r v).isSome = true) → d v = k →
      ∃ p : List String, p.length = k ∧
        (∀ n conns, k ≤ n → walkBack r src n v conns = some (p ++ conns)) ∧
        List.Chain (Edge G) src p ∧ p.getLastD src = v ∧
        (src :: p).Pairwise (fun a b => d a < d b) ∧ (∀ a ∈ src :: p, d a ≤ d v) ∧
        ∀ a ∈ p, ∃ u, Edge G u a := by
  intro k
  induction k with
  | zero =>
    intro v hv hdv
    have hvs : v = src := by
      rcases hv with hv | hv
      · exact hv
      · obtain ⟨u, hu⟩ := Option.isSome_iff_exists.1 hv
        have := (htree v u hu).2.2.2
        omega
    subst hvs
    refine ⟨[], rfl, ?_, List.Chain.nil, rfl, by simp, by simp, by simp⟩
    intro n conns _
    unfold walkBack
    simp
  | succ k ih =>
    intro v hv hdv
    have hvs : v ≠ src := by
      rintro rfl
      omega
    have hv' : (mapGet? r v).isSome = true := by
      rcases hv with hv | hv
      · exact absurd hv hvs
      · exact hv
    obtain ⟨u, hu⟩ := Option.isSome_iff_exists.1 hv'
    obtain ⟨-, hu1, hedge, hdu⟩ := htree v u hu
    obtain ⟨p, hlen, hwalk, hch, hlast, hpw, hle, hkeys⟩ := ih u hu1 (by omega)
    refine ⟨p ++ [v], by simp [hlen], ?_, ?_, by simp, ?_, ?_, ?_⟩
    · intro n conns hn
      obtain ⟨n, rfl⟩ : ∃ n', n = n' + 1 := ⟨n - 1, by omega⟩
      unfold walkBack
      have hpar : parentGet r v = u := by simp [parentGet, hu]
      simp only [hvs, if_false, hpar]
      rw [hwalk n (v :: conns) (by omega)]
      simp
    · show List.Chain' (Edge G) ((src :: p) ++ [v])
      rw [List.chain'_append]
      refine ⟨hch, by simp, ?_⟩
      intro x hx y hy
      rw [List.getLast?_cons, ← List.getLastD_eq_getLast?, hlast] at hx
      obtain rfl : u = x := by simpa using hx
      obtain rfl : v = y := by simpa using hy
      exact hedge
    · rw [← List.cons_append, List.pairwise_append]
      refine ⟨hpw, by simp, ?_⟩
      intro a ha b hb
      obtain rfl : b = v := by simpa using hb
      have := hle a ha
      omega
    · intro a ha
      rw [← List.cons_append, List.mem_append] at ha
      rcases ha with ha | ha
      · have := hle a ha
        omega
      · obtain rfl : a = v := by simpa using ha
        exact le_rfl
    · intro a ha
      rcases List.mem_append.1 ha with ha | ha
      · exact hkeys a ha
      · obtain rfl : a = v := by simpa using ha
        exact ⟨u, hedge⟩

theorem chain_dropLast_edge {G : adjacencyMap} :
    ∀ (l : List String) (a : String), List.Chain (Edge G) a l →
      ∀ x ∈ (a :: l).dropLast, ∃ y, Edge G x y := by
  intro l
  induction l with
  | nil => intro a _ x hx; simp at hx
  | cons b l ih =>
    intro a hch x hx
    rw [List.chain_cons] at hch
    rw [List.dropLast_cons₂, List.mem_cons] at hx
    rcases hx with rfl | hx
    · exact ⟨b, hch.1⟩
    · exact ih b hch.2 x hx

theorem FoundTree.walk {G : adjacencyMap} {src dest : String} {r : GoMap String}
    (h : FoundTree G src dest r) :
    ∃ p : List String, p ≠ [] ∧
      (∀ n conns, p.length ≤ n → walkBack r src n dest conns = some (p ++ conns)) ∧
      IsShortestRoutePath G src dest (src :: p) ∧ (src :: p).Nodup ∧
      p.length ≤ (mapKeys G).length ∧ p.length ≤ (allChildren G).length := by
  obtain ⟨d, hd, -, hne, hdest, htree, hmin⟩ := h
  obtain ⟨p, hlen, hwalk, hch, hlast, hpw, -, hkeys⟩ :=
    walkBack_tree G src r d hd htree (d dest) dest (Or.inr hdest) rfl
  have hnodup : (src :: p).Nodup := by
    refine hpw.imp ?_
    intro a b hab heq
    rw [heq] at hab
    exact Nat.lt_irrefl _ hab
  refine ⟨p, ?_, ?_, ⟨?_, ?_⟩, hnodup, ?_, ?_⟩
  · rintro rfl
    exact hne (by simpa using hlast)
  · intro n conns hn
    exact hwalk n conns (by omega)
  · exact (isRoutePath_iff_chain G src dest _).2 ⟨p, rfl, hch, hlast⟩
  · intro q hq
    obtain ⟨l, rfl, hl, hlast'⟩ := (isRoutePath_iff_chain G src dest q).1 hq
    have := hmin l hl hlast'
    simp only [List.length_cons]
    omega
  · have hsub : (src :: p).dropLast ⊆ mapKeys G := by
      intro x hx
      obtain ⟨y, hy⟩ := chain_dropLast_edge p src hch x hx
      exact adjGet_mem_keys G x y hy
    have hnd : ((src :: p).dropLast).Nodup := hnodup.sublist (List.dropLast_sublist _)
    have := (List.subperm_of_subset hnd hsub).length_le
    simpa using this
  · have hsub : p ⊆ allChildren G := by
      intro a ha
      obtain ⟨u, hu⟩ := hkeys a ha
      exact adjGet_subset_allChildren G u a hu
    exact (List.subperm_of_subset (List.nodup_cons.1 hnodup).2 hsub).length_le

theorem buildTraversal_found (G : adjacencyMap) (src dest : String)
    (h : buildTraversal src dest G ≠ []) : FoundTree G src dest (buildTraversal src dest G) := by
  rcases buildTraversal_spec G src dest with ⟨h1, -⟩ | h1
  · exact absurd h1 h
  · exact h1

theorem buildTraversal_ne_nil_iff (G : adjacencyMap) (src dest : String) :
    buildTraversal src dest G ≠ [] ↔ src ≠ dest ∧ Reachable G src dest := by
  constructor
  · intro h
    have hf := buildTraversal_found G src dest h
    obtain ⟨p, -, -, ⟨hp, -⟩, -⟩ := hf.walk
    obtain ⟨d, -, -, hne, -⟩ := hf
    exact ⟨hne, _, hp⟩
  · rintro ⟨hne, hreach⟩
    rcases buildTraversal_spec G src dest with ⟨-, h2 | h2⟩ | ⟨d, -, h1, -⟩
    · exact absurd h2 hne
    · exact absurd hreach h2
    · exact h1

/-! ## The connection resolver -/

theorem isShortestRoutePath_self (G : adjacencyMap) (f : String) :
    IsShortestRoutePath G f f [f] := by
  refine ⟨⟨rfl, rfl, by simp⟩, ?_⟩
  rintro q ⟨hq, -⟩
  cases q with
  | nil => simp at hq
  | cons a l => simp

theorem connectInner_spec (G : adjacencyMap) (f : String) :
    ∀ ts : List String,
      ((∀ t ∈ ts, ¬ Connected G f t) ∧
        ∀ m, searchFuel G ≤ m → connectInner m G f ts [] = some ([], false)) ∨
      (∃ ts1 t ts2 p, ts = ts1 ++ t :: ts2 ∧ (∀ t' ∈ ts1, ¬ Connected G f t') ∧
        Connected G f t ∧ IsShortestRoutePath G f t p ∧
        ∀ m, searchFuel G ≤ m → connectInner m G f ts [] = some (p, true)) := by
  intro ts
  induction ts with
  | nil =>
    left
    exact ⟨by simp, fun m _ => by simp [connectInner]⟩
  | cons t rest ih =>
    by_cases hft : f = t
    · right
      subst hft
      refine ⟨[], f, rest, [f], rfl, by simp, Or.inl rfl, isShortestRoutePath_self G f, ?_⟩
      intro m _
      simp [connectInner]
    · by_cases hr : buildTraversal f t G = []
      · have hnc : ¬ Connected G f t := by
          rintro (h | h)
          · exact hft h
          · exact (buildTraversal_ne_nil_iff G f t).2 ⟨hft, h⟩ hr
        have hstep : ∀ m, searchFuel G ≤ m →
            connectInner m G f (t :: rest) [] = connectInner m G f rest [] := by
          intro m hm
          simp [connectInner, hft, buildTraversalFuel_eq G f t m hm, hr]
        rcases ih with ⟨h1, h2⟩ | ⟨ts1, t', ts2, p, h1, h2, h3, h4, h5⟩
        · left
          refine ⟨?_, fun m hm => by rw [hstep m hm, h2 m hm]⟩
          intro x hx
          rcases List.mem_cons.1 hx with rfl | hx
          · exact hnc
          · exact h1 x hx
        · right
          refine ⟨t :: ts1, t', ts2, p, by simp [h1], ?_, h3, h4,
            fun m hm => by rw [hstep m hm, h5 m hm]⟩
          intro x hx
          rcases List.mem_cons.1 hx with rfl | hx
          · exact hnc
          · exact h2 x hx
      · right
        have hfound := buildTraversal_found G f t hr
        obtain ⟨p, -, hwalk, hshort, -, -, hlen⟩ := hfound.walk
        refine ⟨[], t, rest, f :: p, rfl, by simp,
          Or.inr ⟨_, hshort.1⟩, hshort, ?_⟩
        intro m hm
        have hlen' : p.length ≤ m := by
          unfold searchFuel at hm
          omega
        have hlen0 : (buildTraversal f t G).length ≠ 0 := by
          intro h0
          exact hr (List.length_eq_zero.1 h0)
        simp [connectInner, hft, buildTraversalFuel_eq G f t m hm, hlen0,
          hwalk m [] hlen']

theorem connectOuter_spec (G : adjacencyMap) (ts : List String) :
    ∀ fs : List String,
      ((∀ f ∈ fs, ∀ t ∈ ts, ¬ Connected G f t) ∧
        ∀ m, searchFuel G ≤ m → connectOuter m G ts fs [] = some []) ∨
      (∃ f t p, FirstPair G fs ts f t ∧ IsShortestRoutePath G f t p ∧
        ∀ m, searchFuel G ≤ m → connectOuter m G ts fs [] = some p) := by
  intro fs
  induction fs with
  | nil =>
    left
    exact ⟨by simp, fun m _ => by simp [connectOuter]⟩
  | cons f rest ih =>
    rcases connectInner_spec G f ts with ⟨h1, h2⟩ | ⟨ts1, t, ts2, p, h1, h2, h3, h4, h5⟩
    · have hstep : ∀ m, searchFuel G ≤ m →
          connectOuter m G ts (f :: rest) [] = connectOuter m G ts rest [] := by
        intro m hm
        simp [connectOuter, h2 m hm]
      rcases ih with ⟨g1, g2⟩ | ⟨f', t', p, ⟨fs1, fs2, ts1, ts2, g1, g2, g3, g4, g5⟩, g6, g7⟩
      · left
        refine ⟨?_, fun m hm => by rw [hstep m hm, g2 m hm]⟩
        intro x hx
        rcases List.mem_cons.1 hx with rfl | hx
        · exact h1
        · exact g1 x hx
      · right
        refine ⟨f', t', p, ⟨f :: fs1, fs2, ts1, ts2, by simp [g1], g2, ?_, g4, g5⟩, g6,
          fun m hm => by rw [hstep m hm, g7 m hm]⟩
        intro x hx
        rcases List.mem_cons.1 hx with rfl | hx
        · exact h1
        · exact g3 x hx
    · right
      refine ⟨f, t, p, ⟨[], rest, ts1, ts2, rfl, h1, by simp, h2, h3⟩, h4, ?_⟩
      intro m hm
      simp [connectOuter, h5 m hm]

theorem getConnectingRoutes_spec (G : adjacencyMap) (fs ts : List String) :
    ((∀ f ∈ fs, ∀ t ∈ ts, ¬ Connected G f t) ∧ getConnectingRoutes fs ts G = []) ∨
    (∃ f t, FirstPair G fs ts f t ∧
      IsShortestRoutePath G f t (getConnectingRoutes fs ts G)) := by
  rcases connectOuter_spec G ts fs with ⟨h1, h2⟩ | ⟨f, t, p, h1, h2, h3⟩
  · left
    refine ⟨h1, ?_⟩
    simp [getConnectingRoutes, getConnectingRoutesFuel, h2 _ le_rfl]
  · right
    refine ⟨f, t, h1, ?_⟩
    simpa [getConnectingRoutes, getConnectingRoutesFuel, h3 _ le_rfl] using h2

theorem getConnectingRoutesFuel_eq (G : adjacencyMap) (fs ts : List String) (m : Nat)
    (hm : searchFuel G ≤ m) :
    getConnectingRoutesFuel m fs ts G = some (getConnectingRoutes fs ts G) := by
  rcases connectOuter_spec G ts fs with ⟨-, h2⟩ | ⟨f, t, p, -, -, h3⟩
  · simp [getConnectingRoutes, getConnectingRoutesFuel, h2 _ le_rfl, h2 m hm]
  · simp [getConnectingRoutes, getConnectingRoutesFuel, h3 _ le_rfl, h3 m hm]

theorem IsRoutePath.ne_nil {G : adjacencyMap} {f t : String} {p : List String}
    (h : IsRoutePath G f t p) : p ≠ [] := by
  rintro rfl
  simp [IsRoutePath] at h

theorem connected_iff (G : adjacencyMap) (f t : String) :
    Connected G f t ↔ f = t ∨ buildTraversal f t G ≠ [] := by
  constructor
  · rintro (h | h)
    · exact Or.inl h
    · by_cases hft : f = t
      · exact Or.inl hft
      · exact Or.inr ((buildTraversal_ne_nil_iff G f t).2 ⟨hft, h⟩)
  · rintro (h | h)
    · exact Or.inl h
    · exact Or.inr ((buildTraversal_ne_nil_iff G f t).1 h).2

/-! ## The claims about the search and the connection resolver -/

/-- C1: for distinct routes `src` and `dest`, when `buildTraversal` returns a
non-empty predecessor map, the walk over predecessors from `dest` back to
`src` ends, and the routes it collects, with `src` in front, form a directed
path from `src` to `dest` with the least number of edges among all directed
paths from `src` to `dest`. -/
theorem buildTraversal_shortest_path (G : adjacencyMap) (src dest : String)
    (hne : src ≠ dest) (h : buildTraversal src dest G ≠ []) :
    ∃ w : List String,
      (∀ n, w.length ≤ n →
        walkBack (buildTraversal src dest G) src n dest [] = some w) ∧
      IsRoutePath G src dest (src :: w) ∧
      ∀ q, IsRoutePath G src dest q → (src :: w).length - 1 ≤ q.length - 1 := by
  have _ := hne
  obtain ⟨p, -, hwalk, ⟨hpath, hmin⟩, -⟩ := (buildTraversal_found G src dest h).walk
  refine ⟨p, ?_, hpath, ?_⟩
  · intro n hn
    simpa using hwalk n [] hn
  · intro q hq
    exact Nat.sub_le_sub_right (hmin q hq) 1

theorem buildTraversal_shortest_path_witness :
    "A" ≠ "D" ∧
    buildTraversal "A" "D" [("A", ["B", "C"]), ("B", ["E"]), ("C", ["D"]), ("E", ["D"])] ≠ [] ∧
    ∃ w : List String,
      (∀ n, w.length ≤ n →
        walkBack
          (buildTraversal "A" "D" [("A", ["B", "C"]), ("B", ["E"]), ("C", ["D"]), ("E", ["D"])])
          "A" n "D" [] = some w) ∧
      IsRoutePath [("A", ["B", "C"]), ("B", ["E"]), ("C", ["D"]), ("E", ["D"])] "A" "D"
        ("A" :: w) ∧
      ∀ q, IsRoutePath [("A", ["B", "C"]), ("B", ["E"]), ("C", ["D"]), ("E", ["D"])] "A" "D" q →
        ("A" :: w).length - 1 ≤ q.length - 1 :=
  ⟨by decide, by decide,
    buildTraversal_shortest_path
      [("A", ["B", "C"]), ("B", ["E"]), ("C", ["D"]), ("E", ["D"])] "A" "D"
      (by decide) (by decide)⟩

/-- C2: a non-empty result of `getConnectingRoutes` starts with a route of
`fromRoutes`, ends with a route of `toRoutes`, each of its routes is listed in
the adjacency list of the route before it, and a result of one route has that
route in both `fromRoutes` and `toRoutes`. -/
theorem getConnectingRoutes_is_path (G : adjacencyMap) (fromRoutes toRoutes : List String)
    (h : getConnectingRoutes fromRoutes toRoutes G ≠ []) :
    (∃ f ∈ fromRoutes, (getConnectingRoutes fromRoutes toRoutes G).head? = some f) ∧
    (∃ t ∈ toRoutes, (getConnectingRoutes fromRoutes toRoutes G).getLast? = some t) ∧
    (∀ i (hi : i + 1 < (getConnectingRoutes fromRoutes toRoutes G).length),
      (getConnectingRoutes fromRoutes toRoutes G)[i + 1] ∈
        adjGet G (getConnectingRoutes fromRoutes toRoutes G)[i]) ∧
    ∀ r, getConnectingRoutes fromRoutes toRoutes G = [r] → r ∈ fromRoutes ∧ r ∈ toRoutes := by
  rcases getConnectingRoutes_spec G fromRoutes toRoutes with ⟨-, h2⟩ | h2
  · exact absurd h2 h
  · obtain ⟨f, t, ⟨fs1, fs2, ts1, ts2, hfs, hts, -⟩, ⟨hhead, hlast, hchain⟩, -⟩ := h2
    have hf : f ∈ fromRoutes := by rw [hfs]; simp
    have ht : t ∈ toRoutes := by rw [hts]; simp
    refine ⟨⟨f, hf, hhead⟩, ⟨t, ht, hlast⟩, ?_, ?_⟩
    · intro i hi
      have := List.chain'_iff_get.1 hchain i (by omega)
      simpa [Edge] using this
    · intro r hr
      rw [hr] at hhead hlast
      obtain rfl : r = f := by simpa using hhead
      obtain rfl : r = t := by simpa using hlast
      exact ⟨hf, ht⟩

theorem getConnectingRoutes_is_path_witness :
    getConnectingRoutes ["Red"] ["Orange"]
      [("Red", ["Green"]), ("Green", ["Blue"]), ("Blue", ["Orange"])] ≠ [] ∧
    ((∃ f ∈ ["Red"], (getConnectingRoutes ["Red"] ["Orange"]
      [("Red", ["Green"]), ("Green", ["Blue"]), ("Blue", ["Orange"])]).head? = some f) ∧
    (∃ t ∈ ["Orange"], (getConnectingRoutes ["Red"] ["Orange"]
      [("Red", ["Green"]), ("Green", ["Blue"]), ("Blue", ["Orange"])]).getLast? = some t) ∧
    (∀ i (hi : i + 1 < (getConnectingRoutes ["Red"] ["Orange"]
        [("Red", ["Green"]), ("Green", ["Blue"]), ("Blue", ["Orange"])]).length),
      (getConnectingRoutes ["Red"] ["Orange"]
        [("Red", ["Green"]), ("Green", ["Blue"]), ("Blue", ["Orange"])])[i + 1] ∈
        adjGet [("Red", ["Green"]), ("Green", ["Blue"]), ("Blue", ["Orange"])]
          (getConnectingRoutes ["Red"] ["Orange"]
            [("Red", ["Green"]), ("Green", ["Blue"]), ("Blue", ["Orange"])])[i]) ∧
    ∀ r, getConnectingRoutes ["Red"] ["Orange"]
        [("Red", ["Green"]), ("Green", ["Blue"]), ("Blue", ["Orange"])] = [r] →
      r ∈ ["Red"] ∧ r ∈ ["Orange"]) :=
  ⟨by decide,
    getConnectingRoutes_is_path [("Red", ["Green"]), ("Green", ["Blue"]), ("Blue", ["Orange"])]
      ["Red"] ["Orange"] (by decide)⟩

/-- C3: when `buildTraversal A B G` is non-empty, the predecessor walk of
`getConnectingRoutes` from `B` reaches `A` within as many steps as `G` has
keys, and the routes it goes through, `A` included, are all different. -/
theorem walkBack_terminates (G : adjacencyMap) (A B : String)
    (h : buildTraversal A B G ≠ []) :
    ∃ w : List String,
      walkBack (buildTraversal A B G) A (mapKeys G).length B [] = some w ∧
      w.length ≤ (mapKeys G).length ∧ (A :: w).Nodup := by
  obtain ⟨p, -, hwalk, -, hnodup, hlen, -⟩ := (buildTraversal_found G A B h).walk
  refine ⟨p, ?_, hlen, hnodup⟩
  simpa using hwalk _ [] hlen

theorem walkBack_terminates_witness :
    buildTraversal "Red" "Orange"
      [("Red", ["Green"]), ("Green", ["Blue"]), ("Blue", ["Orange"])] ≠ [] ∧
    ∃ w : List String,
      walkBack (buildTraversal "Red" "Orange"
          [("Red", ["Green"]), ("Green", ["Blue"]), ("Blue", ["Orange"])]) "Red"
        (mapKeys [("Red", ["Green"]), ("Green", ["Blue"]), ("Blue", ["Orange"])]).length
        "Orange" [] = some w ∧
      w.length ≤ (mapKeys [("Red", ["Green"]), ("Green", ["Blue"]), ("Blue", ["Orange"])]).length ∧
      ("Red" :: w).Nodup :=
  ⟨by decide,
    walkBack_terminates [("Red", ["Green"]), ("Green", ["Blue"]), ("Blue", ["Orange"])]
      "Red" "Orange" (by decide)⟩

/-- C4: the search of `buildTraversal` ends on every input; its result is
non-empty exactly when `src` and `dest` differ and `dest` can be reached from
`src`, and a non-empty result has `dest` as a key. -/
theorem buildTraversal_nonempty_iff (G : adjacencyMap) (src dest : String) :
    (∀ n, searchFuel G ≤ n →
      buildTraversalFuel n src dest G = some (buildTraversal src dest G)) ∧
    (buildTraversal src dest G ≠ [] ↔ src ≠ dest ∧ Reachable G src dest) ∧
    (buildTraversal src dest G ≠ [] →
      (mapGet? (buildTraversal src dest G) dest).isSome = true) := by
  refine ⟨fun n hn => buildTraversalFuel_eq G src dest n hn,
    buildTraversal_ne_nil_iff G src dest, ?_⟩
  intro h
  obtain ⟨d, -, -, -, hdest, -⟩ := buildTraversal_found G src dest h
  exact hdest

/-- C5: `getConnectingRoutes` ends on every input, and it returns the empty
list exactly when no route of `fromRoutes` is connected to a route of
`toRoutes`; so it does when either list is empty. -/
theorem getConnectingRoutes_empty_iff (G : adjacencyMap) (fromRoutes toRoutes : List String) :
    (∀ n, searchFuel G ≤ n →
      getConnectingRoutesFuel n fromRoutes toRoutes G =
        some (getConnectingRoutes fromRoutes toRoutes G)) ∧
    (getConnectingRoutes fromRoutes toRoutes G = [] ↔
      ¬ ∃ f ∈ fromRoutes, ∃ t ∈ toRoutes, Connected G f t) ∧
    getConnectingRoutes [] toRoutes G = [] ∧ getConnectingRoutes fromRoutes [] G = [] := by
  have key : ∀ fs ts : List String, getConnectingRoutes fs ts G = [] ↔
      ¬ ∃ f ∈ fs, ∃ t ∈ ts, Connected G f t := by
    intro fs ts
    rcases getConnectingRoutes_spec G fs ts with ⟨h1, h2⟩ | h2
    · refine ⟨fun _ => ?_, fun _ => h2⟩
      rintro ⟨f, hf, t, ht, hc⟩
      exact h1 f hf t ht hc
    · obtain ⟨f, t, ⟨fs1, fs2, ts1, ts2, hfs, hts, -, -, hc⟩, hp, -⟩ := h2
      constructor
      · intro h
        exact absurd h hp.ne_nil
      · intro h
        exact absurd ⟨f, by rw [hfs]; simp, t, by rw [hts]; simp, hc⟩ h
  refine ⟨fun n hn => getConnectingRoutesFuel_eq G fromRoutes toRoutes n hn,
    key _ _, (key _ _).2 (by simp), (key _ _).2 (by simp)⟩

/-- C6: when `fromRoutes` and `toRoutes` both begin with the route `r`,
`getConnectingRoutes` returns the list `[r]` for every adjacency map, and
does so without a single iteration of a search loop. -/
theorem getConnectingRoutes_same_route (G : adjacencyMap) (r : String)
    (fromRest toRest : List String) :
    getConnectingRoutes (r :: fromRest) (r :: toRest) G = [r] ∧
    ∀ n, getConnectingRoutesFuel n (r :: fromRest) (r :: toRest) G = some [r] := by
  have h : ∀ n, getConnectingRoutesFuel n (r :: fromRest) (r :: toRest) G = some [r] := by
    intro n
    simp [getConnectingRoutesFuel, connectOuter, connectInner]
  refine ⟨?_, h⟩
  simp [getConnectingRoutes, h]

/-- C7: when `(i, j)` is the lexicographically least pair of an index into
`fromRoutes` and an index into `toRoutes` whose routes `f` and `t` are
connected, `getConnectingRoutes` returns a path that starts at `f`, ends at
`t` and has the least number of routes among the paths from `f` to `t`. -/
theorem getConnectingRoutes_first_pair (G : adjacencyMap) (fromRoutes toRoutes : List String)
    (i j : Nat) (f t : String) (hf : fromRoutes[i]? = some f) (ht : toRoutes[j]? = some t)
    (hc : Connected G f t)
    (hmin : ∀ i' j' f' t', fromRoutes[i']? = some f' → toRoutes[j']? = some t' →
      Connected G f' t' → i < i' ∨ (i = i' ∧ j ≤ j')) :
    IsShortestRoutePath G f t (getConnectingRoutes fromRoutes toRoutes G) := by
  rcases getConnectingRoutes_spec G fromRoutes toRoutes with ⟨h1, -⟩ | h2
  · exact absurd hc (h1 f (List.getElem?_mem hf) t (List.getElem?_mem ht))
  · obtain ⟨f', t', ⟨fs1, fs2, ts1, ts2, hfs, hts, hno1, hno2, hc'⟩, hp⟩ := h2
    have hf' : fromRoutes[fs1.length]? = some f' := by
      rw [hfs, List.getElem?_append_right le_rfl]; simp
    have ht' : toRoutes[ts1.length]? = some t' := by
      rw [hts, List.getElem?_append_right le_rfl]; simp
    have hi : i = fs1.length := by
      rcases hmin _ _ _ _ hf' ht' hc' with hlt | ⟨heq, -⟩
      · exfalso
        have : fs1[i]? = some f := by
          rw [← hf, hfs, List.getElem?_append_left hlt]
        exact hno1 f (List.getElem?_mem this) t (List.getElem?_mem ht) hc
      · exact heq
    subst hi
    obtain rfl : f' = f := by
      rw [hf] at hf'
      exact (Option.some.inj hf').symm
    have hj : j = ts1.length := by
      rcases hmin _ _ _ _ hf' ht' hc' with hlt | ⟨-, hle⟩
      · exact absurd hlt (Nat.lt_irrefl _)
      · rcases Nat.lt_or_ge j ts1.length with hlt | hge
        · exfalso
          have : ts1[j]? = some t := by
            rw [← ht, hts, List.getElem?_append_left hlt]
          exact hno2 t (List.getElem?_mem this) hc
        · omega
    subst hj
    obtain rfl : t' = t := by
      rw [ht] at ht'
      exact (Option.some.inj ht').symm
    exact hp

theorem getConnectingRoutes_first_pair_witness :
    Connected [("A", ["B"]), ("B", ["C"])] "A" "C" ∧
    IsShortestRoutePath [("A", ["B"]), ("B", ["C"])] "A" "C"
      (getConnectingRoutes ["A"] ["Y", "C"] [("A", ["B"]), ("B", ["C"])]) :=
  ⟨(connected_iff _ _ _).2 (by decide),
    getConnectingRoutes_first_pair [("A", ["B"]), ("B", ["C"])] ["A"] ["Y", "C"] 0 1 "A" "C"
      (by decide) (by decide) ((connected_iff _ _ _).2 (by decide))
      (by
        intro i' j' f' t' h1 h2 h3
        rcases i' with _ | i'
        · right
          refine ⟨rfl, ?_⟩
          rcases j' with _ | j'
          · exfalso
            obtain rfl : "A" = f' := by simpa using h1
            obtain rfl : "Y" = t' := by simpa using h2
            exact absurd ((connected_iff _ _ _).1 h3) (by decide)
          · omega
        · left
          omega)⟩

/-- C8: the result of `getConnectingRoutes` can be longer than a path that
connects another pair of routes of the same input: for `fromRoutes = [A, B]`,
`toRoutes = [C]` and the graph `A: [B]`, `B: [A, C]`, `C: [B]` it returns
`[A, B, C]` although `[B, C]` is a path from `B` to `C`. -/
theorem getConnectingRoutes_not_globally_shortest :
    getConnectingRoutes ["A", "B"] ["C"] [("A", ["B"]), ("B", ["A", "C"]), ("C", ["B"])]
      = ["A", "B", "C"] ∧
    ∃ (fromRoutes toRoutes : List String) (G : adjacencyMap) (f t : String) (q : List String),
      f ∈ fromRoutes ∧ t ∈ toRoutes ∧ IsRoutePath G f t q ∧
        q.length < (getConnectingRoutes fromRoutes toRoutes G).length :=
  ⟨by decide,
    ["A", "B"], ["C"], [("A", ["B"]), ("B", ["A", "C"]), ("C", ["B"])], "B", "C", ["B", "C"],
    by decide, by decide,
    ⟨rfl, rfl, List.chain'_cons.2 ⟨by decide, List.chain'_singleton _⟩⟩, by decide⟩

/-! ## The stop and route index -/

theorem contains_iff (l : List String) (v : String) : contains l v = true ↔ v ∈ l := by
  induction l with
  | nil => simp [contains]
  | cons a l ih =>
    by_cases h : a = v
    · simp [contains, h]
    · simp [contains, h, ih, Ne.symm h]

theorem adjGet_mapSet_self (adj : adjacencyMap) (a : String) (l : List String) :
    adjGet (mapSet adj a l) a = l := by
  simp [adjGet, mapGet?_mapSet_self]

theorem adjGet_mapSet_ne (adj : adjacencyMap) (a x : String) (l : List String) (h : a ≠ x) :
    adjGet (mapSet adj a l) x = adjGet adj x := by
  simp [adjGet, mapGet?_mapSet_ne _ _ _ _ h]

theorem addNeighbor_mem (adj : adjacencyMap) (a b x y : String) :
    y ∈ adjGet (addNeighbor adj a b) x ↔ y ∈ adjGet adj x ∨ (x = a ∧ y = b) := by
  unfold addNeighbor
  by_cases hc : contains (adjGet adj a) b = true
  · have hb : b ∈ adjGet adj a := (contains_iff _ _).1 hc
    simp only [hc, Bool.not_true, Bool.false_eq_true, if_false]
    constructor
    · exact Or.inl
    · rintro (h | ⟨rfl, rfl⟩)
      · exact h
      · exact hb
  · simp only [Bool.not_eq_true] at hc
    simp only [hc, Bool.not_false, if_true]
    by_cases hx : a = x
    · subst hx
      rw [adjGet_mapSet_self]
      simp
    · rw [adjGet_mapSet_ne _ _ _ _ hx]
      simp [Ne.symm hx]

theorem addNeighbor_keys (adj : adjacencyMap) (a b : String)
    (h : ∀ A l, mapGet? adj A = some l → l ≠ []) :
    ∀ A l, mapGet? (addNeighbor adj a b) A = some l → l ≠ [] := by
  unfold addNeighbor
  by_cases hc : contains (adjGet adj a) b = true
  · simpa [hc] using h
  · simp only [Bool.not_eq_true] at hc
    simp only [hc, Bool.not_false, if_true]
    intro A l hl
    by_cases hA : a = A
    · subst hA
      rw [mapGet?_mapSet_self] at hl
      obtain rfl := Option.some.inj hl
      simp
    · rw [mapGet?_mapSet_ne _ _ _ _ hA] at hl
      exact h A l hl

theorem linkRoutes_mem (R : String) :
    ∀ (curs : List String) (adj : adjacencyMap) (x y : String),
      y ∈ adjGet (linkRoutes R curs adj) x ↔
        y ∈ adjGet adj x ∨ ∃ c ∈ curs, c ≠ R ∧ ((x = c ∧ y = R) ∨ (x = R ∧ y = c)) := by
  intro curs
  induction curs with
  | nil => intro adj x y; simp [linkRoutes]
  | cons c rest ih =>
    intro adj x y
    by_cases hc : c = R
    · simp only [linkRoutes, hc, if_true, ih]
      constructor
      · rintro (h | ⟨c', hc', h1, h2⟩)
        · exact Or.inl h
        · exact Or.inr ⟨c', List.mem_cons_of_mem _ hc', h1, h2⟩
      · rintro (h | ⟨c', hc', h1, h2⟩)
        · exact Or.inl h
        · rcases List.mem_cons.1 hc' with rfl | hc'
          · exact absurd rfl h1
          · exact Or.inr ⟨c', hc', h1, h2⟩
    · simp only [linkRoutes, hc, if_false, ih, addNeighbor_mem]
      constructor
      · rintro ((h | h) | ⟨c', hc', h1, h2⟩)
        · rcases h with h | h
          · exact Or.inl h
          · exact Or.inr ⟨c, List.mem_cons_self _ _, hc, Or.inl h⟩
        · exact Or.inr ⟨c, List.mem_cons_self _ _, hc, Or.inr h⟩
        · exact Or.inr ⟨c', List.mem_cons_of_mem _ hc', h1, h2⟩
      · rintro (h | ⟨c', hc', h1, h2⟩)
        · exact Or.inl (Or.inl (Or.inl h))
        · rcases List.mem_cons.1 hc' with rfl | hc'
          · rcases h2 with h2 | h2
            · exact Or.inl (Or.inl (Or.inr h2))
            · exact Or.inl (Or.inr h2)
          · exact Or.inr ⟨c', hc', h1, h2⟩

theorem linkRoutes_keys (R : String) :
    ∀ (curs : List String) (adj : adjacencyMap),
      (∀ A l, mapGet? adj A = some l → l ≠ []) →
      ∀ A l, mapGet? (linkRoutes R curs adj) A = some l → l ≠ [] := by
  intro curs
  induction curs with
  | nil => intro adj h; simpa [linkRoutes] using h
  | cons c rest ih =>
    intro adj h
    by_cases hc : c = R
    · simp only [linkRoutes, hc, if_true]
      exact ih adj h
    · simp only [linkRoutes, hc, if_false]
      exact ih _ (addNeighbor_keys _ _ _ (addNeighbor_keys _ _ _ h))

theorem stopRoutes_addStopRoute (stops : stopMap) (s R s' : String) :
    stopRoutes (addStopRoute stops s R) s' =
      if s' = s then stopRoutes stops s ++ [R] else stopRoutes stops s' := by
  unfold addStopRoute
  cases hget : mapGet? stops s with
  | none =>
    simp only [Option.isNone_none, if_true, mapGet?_mapSet_self]
    by_cases hs : s' = s
    · subst hs
      simp [stopRoutes, mapGet?_mapSet_self, hget]
    · simp [stopRoutes, mapGet?_mapSet_ne _ _ _ _ (Ne.symm hs), hs]
  | some sd =>
    simp only [Option.isNone_some, Bool.false_eq_true, if_false, hget]
    by_cases hs : s' = s
    · subst hs
      simp [stopRoutes, mapGet?_mapSet_self, hget]
    · simp [stopRoutes, mapGet?_mapSet_ne _ _ _ _ (Ne.symm hs), hs]

theorem stopsInv_step {stops : stopMap} {E : List (String × String)} (h : StopsInv stops E)
    (R s : String) : StopsInv (addStopRoute stops s R) (E ++ [(R, s)]) := by
  intro s'
  rw [stopRoutes_addStopRoute]
  by_cases hs : s' = s
  · subst hs
    simp [h s', List.filter_append]
  · have : ¬ s = s' := fun e => hs e.symm
    simp [hs, h s', List.filter_append, this]

theorem stopsInv_mem {stops : stopMap} {E : List (String × String)} (h : StopsInv stops E)
    (c s : String) : c ∈ stopRoutes stops s ↔ (c, s) ∈ E := by
  rw [h s]
  simp only [List.mem_map, List.mem_filter, decide_eq_true_eq]
  constructor
  · rintro ⟨⟨a, b⟩, ⟨hmem, rfl⟩, rfl⟩
    exact hmem
  · intro hmem
    exact ⟨(c, s), ⟨hmem, rfl⟩, rfl⟩

theorem adjInv_step {adj : adjacencyMap} {stops : stopMap} {E : List (String × String)}
    (h : AdjInv adj E) (hs : StopsInv stops E) (R s : String) :
    AdjInv (linkRoutes R (stopRoutes (addStopRoute stops s R) s) adj) (E ++ [(R, s)]) := by
  have hs' := stopsInv_step hs R s
  refine ⟨?_, linkRoutes_keys R _ adj h.2⟩
  intro A B
  rw [linkRoutes_mem, h.1 A B]
  constructor
  · rintro (⟨hne, s₀, h1, h2⟩ | ⟨c, hc, hcR, h3⟩)
    · exact ⟨hne, s₀, List.mem_append_left _ h1, List.mem_append_left _ h2⟩
    · have hcE := (stopsInv_mem hs' c s).1 hc
      rcases h3 with ⟨rfl, rfl⟩ | ⟨rfl, rfl⟩
      · exact ⟨hcR, s, hcE, by simp⟩
      · exact ⟨Ne.symm hcR, s, by simp, hcE⟩
  · rintro ⟨hne, s₀, h1, h2⟩
    rcases List.mem_append.1 h1 with g1 | g1
    · rcases List.mem_append.1 h2 with g2 | g2
      · exact Or.inl ⟨hne, s₀, g1, g2⟩
      · obtain ⟨rfl, rfl⟩ : B = R ∧ s₀ = s := by simpa using g2
        right
        exact ⟨A, (stopsInv_mem hs' A s₀).2 h1, hne, Or.inl ⟨rfl, rfl⟩⟩
    · obtain ⟨rfl, rfl⟩ : A = R ∧ s₀ = s := by simpa using g1
      rcases List.mem_append.1 h2 with g2 | g2
      · right
        exact ⟨B, (stopsInv_mem hs' B s₀).2 h2, Ne.symm hne, Or.inr ⟨rfl, rfl⟩⟩
      · obtain ⟨rfl, -⟩ : B = A ∧ s₀ = s₀ := by simpa using g2
        exact absurd rfl hne

theorem processStops_inv (R : String) :
    ∀ (L : List stopResponseData) (stops : stopMap) (adj : adjacencyMap)
      (E : List (String × String)), StopsInv stops E → AdjInv adj E →
      StopsInv (processStops true R L (stops, adj)).1 (E ++ stopEvents R L) ∧
      AdjInv (processStops true R L (stops, adj)).2 (E ++ stopEvents R L) := by
  intro L
  induction L with
  | nil => intro stops adj E h1 h2; simpa [processStops, stopEvents] using ⟨h1, h2⟩
  | cons st rest ih =>
    intro stops adj E h1 h2
    have := ih _ _ _ (stopsInv_step h1 R st.Name) (adjInv_step h2 h1 R st.Name)
    simpa [processStops, stopEvents, List.append_assoc] using this

theorem getStopRoutesLoop_inv (fetch : StopFeed) :
    ∀ (routes : List routeData) (stops : stopMap) (adj : adjacencyMap)
      (queried : List String) (E : List (String × String)),
      (∀ r ∈ routes, ∃ resp, fetch r.ID = .ok resp) → StopsInv stops E → AdjInv adj E →
      ∃ stops' adj', (getStopRoutesLoop fetch true routes (stops, adj) queried).1 =
          .ok (stops', adj') ∧
        StopsInv stops' (E ++ allEvents fetch routes) ∧
        AdjInv adj' (E ++ allEvents fetch routes) := by
  intro routes
  induction routes with
  | nil =>
    intro stops adj queried E _ h1 h2
    exact ⟨stops, adj, rfl, by simpa [allEvents] using h1, by simpa [allEvents] using h2⟩
  | cons r rest ih =>
    intro stops adj queried E hok h1 h2
    obtain ⟨resp, hresp⟩ := hok r (List.mem_cons_self _ _)
    obtain ⟨g1, g2⟩ := processStops_inv r.LongName resp.Data stops adj E h1 h2
    obtain ⟨stops', adj', e1, e2, e3⟩ := ih _ _ (queried ++ [r.ID]) _
      (fun r' hr' => hok r' (List.mem_cons_of_mem _ hr')) g1 g2
    refine ⟨stops', adj', ?_, ?_, ?_⟩
    · simp only [getStopRoutesLoop, hresp]
      exact e1
    · simpa [allEvents, hresp, List.append_assoc] using e2
    · simpa [allEvents, hresp, List.append_assoc] using e3

theorem mem_allEvents (fetch : StopFeed) (routes : routesResponse) (A s : String) :
    (A, s) ∈ allEvents fetch routes.Data ↔ ServesStop fetch routes A s := by
  unfold allEvents ServesStop
  rw [List.mem_flatMap]
  constructor
  · rintro ⟨r, hr, hmem⟩
    cases hf : fetch r.ID with
    | error e => simp [hf] at hmem
    | ok resp =>
      rw [hf] at hmem
      simp only [stopEvents, List.mem_map, Prod.mk.injEq] at hmem
      obtain ⟨st, hst, h1, h2⟩ := hmem
      exact ⟨r, hr, h1, resp, hf, st, hst, h2⟩
  · rintro ⟨r, hr, h1, resp, hf, st, hst, h2⟩
    refine ⟨r, hr, ?_⟩
    rw [hf]
    simp only [stopEvents, List.mem_map, Prod.mk.injEq]
    exact ⟨st, hst, h1, h2⟩

theorem getStopRoutes_inv (fetch : StopFeed) (routes : routesResponse)
    (hok : ∀ r ∈ routes.Data, ∃ resp, fetch r.ID = .ok resp) :
    ∃ stops adj, (getStopRoutes fetch routes true).1 = .ok (stops, adj) ∧
      StopsInv stops (allEvents fetch routes.Data) ∧
      AdjInv adj (allEvents fetch routes.Data) := by
  have h1 : StopsInv [] [] := by
    intro s
    simp [stopRoutes, mapGet?]
  have h2 : AdjInv [] [] := by
    refine ⟨?_, ?_⟩
    · intro A B
      simp [adjGet, mapGet?]
    · intro A l hl
      simp [mapGet?] at hl
  simpa [getStopRoutes] using getStopRoutesLoop_inv fetch routes.Data [] [] [] [] hok h1 h2

/-! ## The claims about the adjacency map -/

/-- C9: for every route list and every stop feed that answers for each of its
routes, `getStopRoutes` with `buildRouteAdjacencyMap = true` returns an
adjacency map in which `B` is in the list of `A` if and only if `A` is in the
list of `B`. -/
theorem getStopRoutes_adjacency_symmetric (fetch : StopFeed) (routes : routesResponse)
    (hok : ∀ r ∈ routes.Data, ∃ resp, fetch r.ID = .ok resp) :
    ∃ stops adj, (getStopRoutes fetch routes true).1 = .ok (stops, adj) ∧
      ∀ A B, B ∈ adjGet adj A ↔ A ∈ adjGet adj B := by
  obtain ⟨stops, adj, h1, -, h3, -⟩ := getStopRoutes_inv fetch routes hok
  refine ⟨stops, adj, h1, ?_⟩
  intro A B
  rw [h3 A B, h3 B A]
  constructor
  · rintro ⟨hne, s, g1, g2⟩
    exact ⟨Ne.symm hne, s, g2, g1⟩
  · rintro ⟨hne, s, g1, g2⟩
    exact ⟨Ne.symm hne, s, g2, g1⟩

theorem getStopRoutes_adjacency_symmetric_witness :
    (∀ r ∈ testRoutes.Data, ∃ resp, testFeed r.ID = .ok resp) ∧
    ∃ stops adj, (getStopRoutes testFeed testRoutes true).1 = .ok (stops, adj) ∧
      ∀ A B, B ∈ adjGet adj A ↔ A ∈ adjGet adj B :=
  ⟨by
      intro r hr
      simp only [testRoutes, List.mem_cons, List.mem_singleton, List.not_mem_nil, or_false] at hr
      rcases hr with rfl | rfl
      · exact ⟨_, rfl⟩
      · exact ⟨_, rfl⟩,
    getStopRoutes_adjacency_symmetric testFeed testRoutes (by
      intro r hr
      simp only [testRoutes, List.mem_cons, List.mem_singleton, List.not_mem_nil, or_false] at hr
      rcases hr with rfl | rfl
      · exact ⟨_, rfl⟩
      · exact ⟨_, rfl⟩)⟩

/-- C10: for every route list and every stop feed that answers for each of its
routes, and for different route names `A` and `B`, `B` is in the adjacency
list of `A` returned by `getStopRoutes` if and only if some stop name is in
the stop list of a route named `A` and in the stop list of a route named `B`;
a route name whose stops are on no route of another name, and so a route name
without stops, has no entry in the adjacency map. -/
theorem getStopRoutes_adjacency_iff_shared_stop (fetch : StopFeed) (routes : routesResponse)
    (hok : ∀ r ∈ routes.Data, ∃ resp, fetch r.ID = .ok resp) :
    ∃ stops adj, (getStopRoutes fetch routes true).1 = .ok (stops, adj) ∧
      (∀ A B, A ≠ B →
        (B ∈ adjGet adj A ↔
          ∃ s, ServesStop fetch routes A s ∧ ServesStop fetch routes B s)) ∧
      (∀ A, (∀ s, ServesStop fetch routes A s → ∀ B, ServesStop fetch routes B s → B = A) →
        mapGet? adj A = none) ∧
      (∀ A, (∀ s, ¬ ServesStop fetch routes A s) → mapGet? adj A = none) := by
  obtain ⟨stops, adj, h1, -, h3, h4⟩ := getStopRoutes_inv fetch routes hok
  have hiso : ∀ A,
      (∀ s, ServesStop fetch routes A s → ∀ B, ServesStop fetch routes B s → B = A) →
      mapGet? adj A = none := by
    intro A hA
    cases hget : mapGet? adj A with
    | none => rfl
    | some l =>
      exfalso
      have hl := h4 A l hget
      obtain ⟨B, hB⟩ := List.exists_mem_of_ne_nil l hl
      have hB' : B ∈ adjGet adj A := by simpa [adjGet, hget] using hB
      obtain ⟨hne, s, g1, g2⟩ := (h3 A B).1 hB'
      exact hne (hA s ((mem_allEvents _ _ _ _).1 g1) B ((mem_allEvents _ _ _ _).1 g2)).symm
  refine ⟨stops, adj, h1, ?_, hiso, ?_⟩
  · intro A B hne
    rw [h3 A B]
    constructor
    · rintro ⟨-, s, g1, g2⟩
      exact ⟨s, (mem_allEvents _ _ _ _).1 g1, (mem_allEvents _ _ _ _).1 g2⟩
    · rintro ⟨s, g1, g2⟩
      exact ⟨hne, s, (mem_allEvents _ _ _ _).2 g1, (mem_allEvents _ _ _ _).2 g2⟩
  · intro A hA
    exact hiso A (fun s hs => absurd hs (hA s))

theorem getStopRoutes_adjacency_iff_shared_stop_witness :
    (∀ r ∈ testRoutes.Data, ∃ resp, testFeed r.ID = .ok resp) ∧
    ∃ stops adj, (getStopRoutes testFeed testRoutes true).1 = .ok (stops, adj) ∧
      (∀ A B, A ≠ B →
        (B ∈ adjGet adj A ↔
          ∃ s, ServesStop testFeed testRoutes A s ∧ ServesStop testFeed testRoutes B s)) ∧
      (∀ A, (∀ s, ServesStop testFeed testRoutes A s →
          ∀ B, ServesStop testFeed testRoutes B s → B = A) →
        mapGet? adj A = none) ∧
      (∀ A, (∀ s, ¬ ServesStop testFeed testRoutes A s) → mapGet? adj A = none) :=
  ⟨by
      intro r hr
      simp only [testRoutes, List.mem_cons, List.mem_singleton, List.not_mem_nil, or_false] at hr
      rcases hr with rfl | rfl
      · exact ⟨_, rfl⟩
      · exact ⟨_, rfl⟩,
    getStopRoutes_adjacency_iff_shared_stop testFeed testRoutes (by
      intro r hr
      simp only [testRoutes, List.mem_cons, List.mem_singleton, List.not_mem_nil, or_false] at hr
      rcases hr with rfl | rfl
      · exact ⟨_, rfl⟩
      · exact ⟨_, rfl⟩)⟩

/-! ## Adjacency lists are sets, and the flag leaves the stop map alone -/

theorem adjGet_nodup {adj : adjacencyMap} (h : AdjNodup adj) (a : String) :
    (adjGet adj a).Nodup := by
  unfold adjGet
  cases hget : mapGet? adj a with
  | none => simp
  | some l => simpa using h a l hget

theorem addNeighbor_nodup (adj : adjacencyMap) (a b : String) (h : AdjNodup adj) :
    AdjNodup (addNeighbor adj a b) := by
  unfold addNeighbor
  by_cases hc : contains (adjGet adj a) b = true
  · simpa [hc] using h
  · have hb : b ∉ adjGet adj a := fun hb => hc ((contains_iff _ _).2 hb)
    simp only [Bool.not_eq_true] at hc
    simp only [hc, Bool.not_false, if_true]
    intro A l hl
    by_cases hA : a = A
    · subst hA
      rw [mapGet?_mapSet_self] at hl
      obtain rfl := Option.some.inj hl
      rw [List.nodup_append]
      refine ⟨adjGet_nodup h a, by simp, ?_⟩
      intro x hx hx'
      obtain rfl : x = b := by simpa using hx'
      exact hb hx
    · rw [mapGet?_mapSet_ne _ _ _ _ hA] at hl
      exact h A l hl

theorem linkRoutes_nodup (R : String) :
    ∀ (curs : List String) (adj : adjacencyMap), AdjNodup adj →
      AdjNodup (linkRoutes R curs adj) := by
  intro curs
  induction curs with
  | nil => intro adj h; simpa [linkRoutes] using h
  | cons c rest ih =>
    intro adj h
    by_cases hc : c = R
    · simp only [linkRoutes, hc, if_true]
      exact ih adj h
    · simp only [linkRoutes, hc, if_false]
      exact ih _ (addNeighbor_nodup _ _ _ (addNeighbor_nodup _ _ _ h))

theorem processStops_nodup (b : Bool) (R : String) :
    ∀ (L : List stopResponseData) (stops : stopMap) (adj : adjacencyMap), AdjNodup adj →
      AdjNodup (processStops b R L (stops, adj)).2 := by
  intro L
  induction L with
  | nil => intro stops adj h; simpa [processStops] using h
  | cons st rest ih =>
    intro stops adj h
    cases b with
    | false =>
      simp only [processStops, Bool.not_false, if_true]
      exact ih _ _ h
    | true =>
      simp only [processStops, Bool.not_true, Bool.false_eq_true, if_false]
      exact ih _ _ (linkRoutes_nodup R _ adj h)

theorem getStopRoutesLoop_nodup (fetch : StopFeed) (b : Bool) :
    ∀ (routes : List routeData) (stops : stopMap) (adj : adjacencyMap) (queried : List String)
      (stops' : stopMap) (adj' : adjacencyMap), AdjNodup adj →
      (getStopRoutesLoop fetch b routes (stops, adj) queried).1 = .ok (stops', adj') →
      AdjNodup adj' := by
  intro routes
  induction routes with
  | nil =>
    intro stops adj queried stops' adj' h hres
    simp only [getStopRoutesLoop, Except.ok.injEq, Prod.mk.injEq] at hres
    rw [← hres.2]
    exact h
  | cons r rest ih =>
    intro stops adj queried stops' adj' h hres
    cases hf : fetch r.ID with
    | error e => simp [getStopRoutesLoop, hf] at hres
    | ok resp =>
      simp only [getStopRoutesLoop, hf] at hres
      have hn := processStops_nodup b r.LongName resp.Data stops adj h
      exact ih _ _ _ stops' adj' hn hres

theorem processStops_false (R : String) :
    ∀ (L : List stopResponseData) (stops : stopMap) (adj adj' : adjacencyMap),
      processStops false R L (stops, adj) = ((processStops true R L (stops, adj')).1, adj) := by
  intro L
  induction L with
  | nil => intro stops adj adj'; simp [processStops]
  | cons st rest ih =>
    intro stops adj adj'
    simp only [processStops, Bool.not_false, if_true, Bool.not_true, Bool.false_eq_true,
      if_false]
    exact ih _ _ _

theorem getStopRoutesLoop_false (fetch : StopFeed) :
    ∀ (routes : List routeData) (stops : stopMap) (adj adj' : adjacencyMap)
      (queried : List String),
      getStopRoutesLoop fetch false routes (stops, adj) queried =
        match getStopRoutesLoop fetch true routes (stops, adj') queried with
        | (.ok (stops', _), l) => (.ok (stops', adj), l)
        | (.error e, l) => (.error e, l) := by
  intro routes
  induction routes with
  | nil => intro stops adj adj' queried; simp [getStopRoutesLoop]
  | cons r rest ih =>
    intro stops adj adj' queried
    cases hf : fetch r.ID with
    | error e => simp [getStopRoutesLoop, hf]
    | ok resp =>
      simp only [getStopRoutesLoop, hf]
      rw [processStops_false r.LongName resp.Data stops adj adj']
      exact ih _ _ _ _

/-- C11: for every route list and every stop feed that answers for each of its
routes, and for either value of the flag, no adjacency list returned by
`getStopRoutes` lists a route name twice, and the list of `R` never lists `R`
itself. -/
theorem getStopRoutes_adjacency_lists_are_sets (fetch : StopFeed) (routes : routesResponse)
    (hok : ∀ r ∈ routes.Data, ∃ resp, fetch r.ID = .ok resp) (b : Bool) :
    ∃ stops adj, (getStopRoutes fetch routes b).1 = .ok (stops, adj) ∧
      ∀ R, (adjGet adj R).Nodup ∧ R ∉ adjGet adj R := by
  obtain ⟨stops, adj, h1, -, h3, -⟩ := getStopRoutes_inv fetch routes hok
  cases b with
  | true =>
    have hn : AdjNodup adj :=
      getStopRoutesLoop_nodup fetch true routes.Data [] [] [] stops adj
        (by intro A l hl; simp [mapGet?] at hl) h1
    refine ⟨stops, adj, h1, fun R => ⟨adjGet_nodup hn R, ?_⟩⟩
    intro hR
    exact ((h3 R R).1 hR).1 rfl
  | false =>
    refine ⟨stops, [], ?_, fun R => by simp [adjGet, mapGet?]⟩
    have hflag := getStopRoutesLoop_false fetch routes.Data [] [] [] []
    unfold getStopRoutes at h1 ⊢
    rw [hflag]
    revert h1
    rcases getStopRoutesLoop fetch true routes.Data ([], []) [] with ⟨res, l⟩
    intro h1
    simp only at h1
    subst h1
    rfl

theorem getStopRoutes_adjacency_lists_are_sets_witness :
    (∀ r ∈ testRoutes.Data, ∃ resp, testFeed r.ID = .ok resp) ∧
    ∃ stops adj, (getStopRoutes testFeed testRoutes true).1 = .ok (stops, adj) ∧
      ∀ R, (adjGet adj R).Nodup ∧ R ∉ adjGet adj R :=
  ⟨by
      intro r hr
      simp only [testRoutes, List.mem_cons, List.mem_singleton, List.not_mem_nil, or_false] at hr
      rcases hr with rfl | rfl
      · exact ⟨_, rfl⟩
      · exact ⟨_, rfl⟩,
    getStopRoutes_adjacency_lists_are_sets testFeed testRoutes (by
      intro r hr
      simp only [testRoutes, List.mem_cons, List.mem_singleton, List.not_mem_nil, or_false] at hr
      rcases hr with rfl | rfl
      · exact ⟨_, rfl⟩
      · exact ⟨_, rfl⟩) true⟩

/-- C19: for every route list and every stop feed that answers for each of its
routes, `getStopRoutes` returns the same stop map with the flag false as with
the flag true, and with the flag false the adjacency map it returns is
empty. -/
theorem getStopRoutes_flag_frame (fetch : StopFeed) (routes : routesResponse)
    (hok : ∀ r ∈ routes.Data, ∃ resp, fetch r.ID = .ok resp) :
    ∃ stops adj, (getStopRoutes fetch routes true).1 = .ok (stops, adj) ∧
      (getStopRoutes fetch routes false).1 = .ok (stops, []) := by
  obtain ⟨stops, adj, h1, -⟩ := getStopRoutes_inv fetch routes hok
  refine ⟨stops, adj, h1, ?_⟩
  have hflag := getStopRoutesLoop_false fetch routes.Data [] [] [] []
  unfold getStopRoutes at h1 ⊢
  rw [hflag]
  revert h1
  rcases getStopRoutesLoop fetch true routes.Data ([], []) [] with ⟨res, l⟩
  intro h1
  simp only at h1
  subst h1
  rfl

theorem getStopRoutes_flag_frame_witness :
    (∀ r ∈ testRoutes.Data, ∃ resp, testFeed r.ID = .ok resp) ∧
    ∃ stops adj, (getStopRoutes testFeed testRoutes true).1 = .ok (stops, adj) ∧
      (getStopRoutes testFeed testRoutes false).1 = .ok (stops, []) :=
  ⟨by
      intro r hr
      simp only [testRoutes, List.mem_cons, List.mem_singleton, List.not_mem_nil, or_false] at hr
      rcases hr with rfl | rfl
      · exact ⟨_, rfl⟩
      · exact ⟨_, rfl⟩,
    getStopRoutes_flag_frame testFeed testRoutes (by
      intro r hr
      simp only [testRoutes, List.mem_cons, List.mem_singleton, List.not_mem_nil, or_false] at hr
      rcases hr with rfl | rfl
      · exact ⟨_, rfl⟩
      · exact ⟨_, rfl⟩)⟩

/-! ## Fetch failures -/

theorem first_failure (fetch : StopFeed) :
    ∀ l : List routeData, (∃ r ∈ l, ∃ e, fetch r.ID = .error e) →
      ∃ pre r post err, l = pre ++ r :: post ∧
        (∀ r' ∈ pre, ∃ resp, fetch r'.ID = .ok resp) ∧ fetch r.ID = .error err := by
  intro l
  induction l with
  | nil => rintro ⟨r, hr, -⟩; simp at hr
  | cons a l ih =>
    rintro ⟨r, hr, e, he⟩
    cases hf : fetch a.ID with
    | error err => exact ⟨[], a, l, err, rfl, by simp, hf⟩
    | ok resp =>
      have hr' : r ∈ l := by
        rcases List.mem_cons.1 hr with rfl | hr
        · rw [hf] at he; exact Except.noConfusion he
        · exact hr
      obtain ⟨pre, r₀, post, err, h1, h2, h3⟩ := ih ⟨r, hr', e, he⟩
      refine ⟨a :: pre, r₀, post, err, by simp [h1], ?_, h3⟩
      intro r' hr'
      rcases List.mem_cons.1 hr' with rfl | hr'
      · exact ⟨resp, hf⟩
      · exact h2 r' hr'

theorem getStopRoutesLoop_fail (fetch : StopFeed) (b : Bool) (r : routeData)
    (post : List routeData) (err : String) (hr : fetch r.ID = .error err) :
    ∀ (pre : List routeData) (acc : stopMap × adjacencyMap) (queried : List String),
      (∀ r' ∈ pre, ∃ resp, fetch r'.ID = .ok resp) →
      getStopRoutesLoop fetch b (pre ++ r :: post) acc queried =
        (.error err, queried ++ (pre ++ [r]).map (fun x => x.ID)) := by
  intro pre
  induction pre with
  | nil => intro acc queried _; simp [getStopRoutesLoop, hr]
  | cons a pre ih =>
    intro acc queried hpre
    obtain ⟨resp, hresp⟩ := hpre a (List.mem_cons_self _ _)
    have := ih (processStops b a.LongName resp.Data acc) (queried ++ [a.ID])
      (fun r' hr' => hpre r' (List.mem_cons_of_mem _ hr'))
    simp only [List.cons_append, getStopRoutesLoop, hresp]
    exact this.trans (by simp)

theorem getStopCountsLoop_fail (fetch : StopFeed) (r : routeData)
    (post : List routeData) (err : String) (hr : fetch r.ID = .error err) :
    ∀ (pre : List routeData) (counts : GoMap Nat) (queried : List String),
      (∀ r' ∈ pre, ∃ resp, fetch r'.ID = .ok resp) →
      getStopCountsLoop fetch (pre ++ r :: post) counts queried =
        (.error err, queried ++ (pre ++ [r]).map (fun x => x.ID)) := by
  intro pre
  induction pre with
  | nil => intro counts queried _; simp [getStopCountsLoop, hr]
  | cons a pre ih =>
    intro counts queried hpre
    obtain ⟨resp, hresp⟩ := hpre a (List.mem_cons_self _ _)
    have := ih (mapSet counts a.LongName resp.Data.length) (queried ++ [a.ID])
      (fun r' hr' => hpre r' (List.mem_cons_of_mem _ hr'))
    simp only [List.cons_append, getStopCountsLoop, hresp]
    exact this.trans (by simp)

/-- C16: when the fetch fails for at least one route, the route list splits at
the first route whose fetch fails, and `getStopRoutes` (for either flag) and
`getStopCounts` each return the error of that route, no maps, and have
queried the routes up to that one and no route after it. -/
theorem fetch_failure_aborts (fetch : StopFeed) (routes : routesResponse) (b : Bool)
    (hfail : ∃ r ∈ routes.Data, ∃ e, fetch r.ID = .error e) :
    ∃ pre r post err, routes.Data = pre ++ r :: post ∧
      (∀ r' ∈ pre, ∃ resp, fetch r'.ID = .ok resp) ∧ fetch r.ID = .error err ∧
      getStopRoutes fetch routes b = (.error err, (pre ++ [r]).map (fun x => x.ID)) ∧
      getStopCounts fetch routes = (.error err, (pre ++ [r]).map (fun x => x.ID)) := by
  obtain ⟨pre, r, post, err, h1, h2, h3⟩ := first_failure fetch routes.Data hfail
  refine ⟨pre, r, post, err, h1, h2, h3, ?_, ?_⟩
  · unfold getStopRoutes
    rw [h1, getStopRoutesLoop_fail fetch b r post err h3 pre _ _ h2]
    simp
  · unfold getStopCounts
    rw [h1, getStopCountsLoop_fail fetch r post err h3 pre _ _ h2]
    simp

theorem fetch_failure_aborts_witness :
    (∃ r ∈ (routesResponse.mk (testRoutes.Data ++ [⟨"Blue Line", "blue"⟩, ⟨"Red Line", "red"⟩])).Data,
      ∃ e, testFeed r.ID = .error e) ∧
    getStopRoutes testFeed ⟨testRoutes.Data ++ [⟨"Blue Line", "blue"⟩, ⟨"Red Line", "red"⟩]⟩ true
      = (.error "unknown route", ["red", "orange", "blue"]) ∧
    ∃ pre r post err,
      (routesResponse.mk (testRoutes.Data ++ [⟨"Blue Line", "blue"⟩, ⟨"Red Line", "red"⟩])).Data
        = pre ++ r :: post ∧
      (∀ r' ∈ pre, ∃ resp, testFeed r'.ID = .ok resp) ∧ testFeed r.ID = .error err ∧
      getStopRoutes testFeed
          ⟨testRoutes.Data ++ [⟨"Blue Line", "blue"⟩, ⟨"Red Line", "red"⟩]⟩ true
        = (.error err, (pre ++ [r]).map (fun x => x.ID)) ∧
      getStopCounts testFeed ⟨testRoutes.Data ++ [⟨"Blue Line", "blue"⟩, ⟨"Red Line", "red"⟩]⟩
        = (.error err, (pre ++ [r]).map (fun x => x.ID)) :=
  ⟨⟨⟨"Blue Line", "blue"⟩, by simp [testRoutes], "unknown route", rfl⟩, rfl,
    fetch_failure_aborts testFeed
      ⟨testRoutes.Data ++ [⟨"Blue Line", "blue"⟩, ⟨"Red Line", "red"⟩]⟩ true
      ⟨⟨"Blue Line", "blue"⟩, by simp [testRoutes], "unknown route", rfl⟩⟩

/-! ## The route with the most or fewest stops -/

/-- C15: for an empty route list and either value of `fewest`,
`getRouteByStopCount` returns the empty route name and no error, and it has
queried no route. -/
theorem getRouteByStopCount_empty (fetch : StopFeed)
    (rangeOrder : GoMap Nat → List (String × Nat)) (hrange : IsRangeOrder rangeOrder)
    (fewest : Bool) :
    getRouteByStopCount fetch rangeOrder ⟨[]⟩ fewest =
      (("", if fewest then MaxInt32 else 0, none), []) := by
  have h0 : rangeOrder [] = [] := List.Perm.eq_nil (hrange [])
  simp [getRouteByStopCount, getStopCounts, getStopCountsLoop, h0, pickRoute]

theorem getRouteByStopCount_empty_witness :
    IsRangeOrder id ∧
    getRouteByStopCount testFeed id ⟨[]⟩ true = (("", MaxInt32, none), []) ∧
    getRouteByStopCount testFeed id ⟨[]⟩ false = (("", 0, none), []) :=
  ⟨fun m => List.Perm.refl m,
    getRouteByStopCount_empty testFeed id (fun m => List.Perm.refl m) true,
    getRouteByStopCount_empty testFeed id (fun m => List.Perm.refl m) false⟩

/-- C17: at a route list with one route whose fetch fails, `getStopCounts`
returns the fetch error but `getRouteByStopCount` returns the empty route
name, the count 0 and no error, for either value of `fewest`. -/
theorem getRouteByStopCount_swallows_error :
    getStopCounts failingFeed ⟨[⟨"Red Line", "red"⟩]⟩ = (.error "fetch failed", ["red"]) ∧
    getRouteByStopCount failingFeed id ⟨[⟨"Red Line", "red"⟩]⟩ false =
      (("", 0, none), ["red"]) ∧
    getRouteByStopCount failingFeed id ⟨[⟨"Red Line", "red"⟩]⟩ true =
      (("", 0, none), ["red"]) :=
  ⟨rfl, rfl, rfl⟩

/-! ## The stop counts -/

theorem mapSet_keys {β : Type} (m : GoMap β) (k : String) (v : β) :
    (mapSet m k v).map Prod.fst =
      if k ∈ m.map Prod.fst then m.map Prod.fst else m.map Prod.fst ++ [k] := by
  induction m with
  | nil => simp [mapSet]
  | cons kv m ih =>
    obtain ⟨k', v'⟩ := kv
    by_cases h : k' = k
    · subst h
      simp [mapSet]
    · have h' : ¬ k = k' := fun e => h e.symm
      simp only [mapSet, h, if_false, List.map_cons, ih, List.mem_cons, h', false_or]
      by_cases hk : k ∈ m.map Prod.fst
      · simp [hk]
      · simp [hk]

theorem mapSet_keys_nodup {β : Type} (m : GoMap β) (k : String) (v : β)
    (h : (m.map Prod.fst).Nodup) : ((mapSet m k v).map Prod.fst).Nodup := by
  rw [mapSet_keys]
  by_cases hk : k ∈ m.map Prod.fst
  · simpa [hk] using h
  · simp only [hk, if_false]
    rw [List.nodup_append]
    refine ⟨h, by simp, ?_⟩
    intro x hx hx'
    obtain rfl : x = k := by simpa using hx'
    exact hk hx

theorem mem_iff_mapGet? {β : Type} (m : GoMap β) (h : (m.map Prod.fst).Nodup) (k : String)
    (v : β) : (k, v) ∈ m ↔ mapGet? m k = some v := by
  induction m with
  | nil => simp [mapGet?]
  | cons kv m ih =>
    obtain ⟨k', v'⟩ := kv
    simp only [List.map_cons, List.nodup_cons] at h
    by_cases hk : k' = k
    · subst hk
      simp only [mapGet?, if_true, List.mem_cons, Prod.mk.injEq, true_and, Option.some.injEq]
      constructor
      · rintro (h1 | h1)
        · exact h1.symm
        · exact absurd (List.mem_map_of_mem Prod.fst h1) h.1
      · intro h1
        exact Or.inl h1.symm
    · have hk' : ¬ k = k' := fun e => hk e.symm
      simp only [mapGet?, hk, if_false, List.mem_cons, Prod.mk.injEq, hk', false_and, false_or]
      exact ih h.2

theorem lastRouteNamed_concat (done : List routeData) (r : routeData) (name : String) :
    lastRouteNamed (done ++ [r]) name =
      if r.LongName = name then some r else lastRouteNamed done name := by
  unfold lastRouteNamed
  by_cases h : r.LongName = name
  · simp [List.filter_append, h, List.getLast?_append]
  · simp [List.filter_append, h]

theorem lastRouteNamed_some {routes : List routeData} {name : String} {r : routeData}
    (h : lastRouteNamed routes name = some r) : r ∈ routes ∧ r.LongName = name := by
  unfold lastRouteNamed at h
  have := List.mem_of_getLast?_eq_some h
  simpa using this

theorem getStopCountsLoop_spec (fetch : StopFeed) :
    ∀ (rest done : List routeData) (counts : GoMap Nat) (queried : List String),
      (∀ r ∈ rest, ∃ resp, fetch r.ID = .ok resp) →
      (∀ name, mapGet? counts name = (lastRouteNamed done name).map (stopCountOf fetch)) →
      (counts.map Prod.fst).Nodup →
      ∃ counts', getStopCountsLoop fetch rest counts queried =
          (.ok counts', queried ++ rest.map (fun x => x.ID)) ∧
        (∀ name, mapGet? counts' name =
          (lastRouteNamed (done ++ rest) name).map (stopCountOf fetch)) ∧
        (counts'.map Prod.fst).Nodup := by
  intro rest
  induction rest with
  | nil =>
    intro done counts queried _ h1 h2
    exact ⟨counts, by simp [getStopCountsLoop], by simpa using h1, h2⟩
  | cons r rest ih =>
    intro done counts queried hok h1 h2
    obtain ⟨resp, hresp⟩ := hok r (List.mem_cons_self _ _)
    have hcount : stopCountOf fetch r = resp.Data.length := by simp [stopCountOf, hresp]
    have h1' : ∀ name, mapGet? (mapSet counts r.LongName resp.Data.length) name =
        (lastRouteNamed (done ++ [r]) name).map (stopCountOf fetch) := by
      intro name
      rw [lastRouteNamed_concat]
      by_cases hn : r.LongName = name
      · subst hn
        simp [mapGet?_mapSet_self, hcount]
      · simp only [hn, if_false]
        rw [mapGet?_mapSet_ne _ _ _ _ hn]
        exact h1 name
    obtain ⟨counts', e1, e2, e3⟩ := ih (done ++ [r]) _ (queried ++ [r.ID])
      (fun r' hr' => hok r' (List.mem_cons_of_mem _ hr')) h1'
      (mapSet_keys_nodup _ _ _ h2)
    refine ⟨counts', ?_, ?_, e3⟩
    · simp only [getStopCountsLoop, hresp]
      exact e1.trans (by simp)
    · simpa using e2

theorem getStopCounts_spec (fetch : StopFeed) (routes : routesResponse)
    (hok : ∀ r ∈ routes.Data, ∃ resp, fetch r.ID = .ok resp) :
    ∃ counts, getStopCounts fetch routes = (.ok counts, routes.Data.map (fun x => x.ID)) ∧
      (∀ name, mapGet? counts name =
        (lastRouteNamed routes.Data name).map (stopCountOf fetch)) ∧
      (counts.map Prod.fst).Nodup := by
  have := getStopCountsLoop_spec fetch routes.Data [] [] [] hok
    (by intro name; simp [mapGet?, lastRouteNamed]) (by simp)
  simpa [getStopCounts] using this

/-- C18: for every route list whose stop fetches all succeed, `getStopCounts`
returns a map whose keys are exactly the long names of the routes and whose
value for a name is the number of stops fetched for the last route of that
name; it has queried every route once, in order. -/
theorem getStopCounts_counts (fetch : StopFeed) (routes : routesResponse)
    (hok : ∀ r ∈ routes.Data, ∃ resp, fetch r.ID = .ok resp) :
    ∃ counts, getStopCounts fetch routes = (.ok counts, routes.Data.map (fun x => x.ID)) ∧
      (∀ name, (mapGet? counts name).isSome = true ↔
        name ∈ routes.Data.map (fun x => x.LongName)) ∧
      (∀ name, mapGet? counts name =
        (lastRouteNamed routes.Data name).map (stopCountOf fetch)) := by
  obtain ⟨counts, h1, h2, -⟩ := getStopCounts_spec fetch routes hok
  refine ⟨counts, h1, ?_, h2⟩
  intro name
  rw [h2 name]
  unfold lastRouteNamed
  simp only [Option.isSome_map', List.mem_map]
  constructor
  · intro h
    obtain ⟨r, hr⟩ := Option.isSome_iff_exists.1 h
    have := List.mem_of_getLast?_eq_some hr
    simp only [List.mem_filter, decide_eq_true_eq] at this
    exact ⟨r, this.1, this.2⟩
  · rintro ⟨r, hr, hn⟩
    have hne : routes.Data.filter (fun r => r.LongName = name) ≠ [] := by
      intro h0
      have : r ∈ routes.Data.filter (fun r => r.LongName = name) := by
        simp [List.mem_filter, hr, hn]
      rw [h0] at this
      simp at this
    rw [List.getLast?_eq_getLast _ hne]
    rfl

theorem getStopCounts_counts_witness :
    (∀ r ∈ (routesResponse.mk [⟨"Red Line", "red"⟩]).Data,
      ∃ resp, countFeed ["stop1", "stop2", "stop3"] r.ID = .ok resp) ∧
    getStopCounts (countFeed []) ⟨[⟨"Red Line", "red"⟩]⟩ = (.ok [("Red Line", 0)], ["red"]) ∧
    getStopCounts (countFeed ["stop1"]) ⟨[⟨"Red Line", "red"⟩]⟩
      = (.ok [("Red Line", 1)], ["red"]) ∧
    getStopCounts (countFeed ["stop1", "stop2", "stop3"]) ⟨[⟨"Red Line", "red"⟩]⟩
      = (.ok [("Red Line", 3)], ["red"]) ∧
    ∃ counts, getStopCounts (countFeed ["stop1", "stop2", "stop3"]) ⟨[⟨"Red Line", "red"⟩]⟩
        = (.ok counts, [⟨"Red Line", "red"⟩].map (fun x : routeData => x.ID)) ∧
      (∀ name, (mapGet? counts name).isSome = true ↔
        name ∈ [⟨"Red Line", "red"⟩].map (fun x : routeData => x.LongName)) ∧
      (∀ name, mapGet? counts name =
        (lastRouteNamed [⟨"Red Line", "red"⟩] name).map
          (stopCountOf (countFeed ["stop1", "stop2", "stop3"]))) :=
  ⟨fun _ _ => ⟨_, rfl⟩, rfl, rfl, rfl,
    getStopCounts_counts (countFeed ["stop1", "stop2", "stop3"]) ⟨[⟨"Red Line", "red"⟩]⟩
      (fun _ _ => ⟨_, rfl⟩)⟩

/-! ## The extremum loop -/

theorem pickRoute_cons (fewest : Bool) (k : String) (v : Nat) (rest : List (String × Nat))
    (acc : String × Nat) :
    pickRoute fewest ((k, v) :: rest) acc =
      if beats fewest v acc.2 = true then pickRoute fewest rest (k, v)
      else pickRoute fewest rest acc := by
  obtain ⟨route, stopCount⟩ := acc
  simp only [pickRoute, beats]

theorem beats_irrefl (fewest : Bool) (v : Nat) : beats fewest v v = false := by
  cases fewest <;> simp [beats]

theorem beats_trans (fewest : Bool) (a b c : Nat) (h1 : beats fewest a b = true)
    (h2 : beats fewest b c = true) : beats fewest a c = true := by
  cases fewest <;> simp [beats] at h1 h2 ⊢ <;> omega

theorem beats_keep (fewest : Bool) (v res acc : Nat) (h1 : beats fewest v acc = false)
    (h2 : beats fewest res acc = true) : beats fewest v res = false := by
  cases fewest <;> simp [beats] at h1 h2 ⊢ <;> omega

theorem beats_asymm (fewest : Bool) (a b : Nat) (h : beats fewest a b = true) :
    beats fewest b a = false := by
  cases fewest <;> simp [beats] at h ⊢ <;> omega

theorem pickRoute_spec (fewest : Bool) :
    ∀ (L : List (String × Nat)) (acc : String × Nat),
      (pickRoute fewest L acc = acc ∧ ∀ e ∈ L, beats fewest e.2 acc.2 = false) ∨
      (pickRoute fewest L acc ∈ L ∧ beats fewest (pickRoute fewest L acc).2 acc.2 = true ∧
        ∀ e ∈ L, beats fewest e.2 (pickRoute fewest L acc).2 = false) := by
  intro L
  induction L with
  | nil => intro acc; left; exact ⟨rfl, by simp⟩
  | cons kv rest ih =>
    obtain ⟨k, v⟩ := kv
    intro acc
    rw [pickRoute_cons]
    by_cases hb : beats fewest v acc.2 = true
    · simp only [hb, if_true]
      right
      rcases ih (k, v) with ⟨h1, h2⟩ | ⟨h1, h2, h3⟩
      · rw [h1]
        refine ⟨List.mem_cons_self _ _, hb, ?_⟩
        intro e he
        rcases List.mem_cons.1 he with rfl | he
        · exact beats_irrefl _ _
        · exact h2 e he
      · refine ⟨List.mem_cons_of_mem _ h1, beats_trans _ _ _ _ h2 hb, ?_⟩
        intro e he
        rcases List.mem_cons.1 he with rfl | he
        · exact beats_asymm _ _ _ h2
        · exact h3 e he
    · have hb' : beats fewest v acc.2 = false := by simpa using hb
      simp only [hb, if_false]
      rcases ih acc with ⟨h1, h2⟩ | ⟨h1, h2, h3⟩
      · left
        refine ⟨h1, ?_⟩
        intro e he
        rcases List.mem_cons.1 he with rfl | he
        · exact hb'
        · exact h2 e he
      · right
        refine ⟨List.mem_cons_of_mem _ h1, h2, ?_⟩
        intro e he
        rcases List.mem_cons.1 he with rfl | he
        · exact beats_keep _ _ _ _ hb' h2
        · exact h3 e he

/-- C13, as the code has it: for every route list whose stop fetches all
succeed and every order in which `range` visits the stop counts, count for
each long name the last route of that name.  When some counted route has at
least one stop (`fewest = false`), or fewer than `MaxInt32` stops
(`fewest = true`), `getRouteByStopCount` returns the long name of a counted
route of the input with its stop count and no error, and that count is the
greatest (the least when `fewest`) over the counted routes. -/
theorem getRouteByStopCount_extremum (fetch : StopFeed)
    (rangeOrder : GoMap Nat → List (String × Nat)) (routes : routesResponse) (fewest : Bool)
    (hrange : IsRangeOrder rangeOrder)
    (hok : ∀ r ∈ routes.Data, ∃ resp, fetch r.ID = .ok resp)
    (hsome : ∃ r, lastRouteNamed routes.Data r.LongName = some r ∧
      if fewest then stopCountOf fetch r < MaxInt32 else 0 < stopCountOf fetch r) :
    ∃ r ∈ routes.Data, lastRouteNamed routes.Data r.LongName = some r ∧
      (getRouteByStopCount fetch rangeOrder routes fewest).1 =
        (r.LongName, stopCountOf fetch r, none) ∧
      ∀ r', lastRouteNamed routes.Data r'.LongName = some r' →
        if fewest then stopCountOf fetch r ≤ stopCountOf fetch r'
        else stopCountOf fetch r' ≤ stopCountOf fetch r := by
  obtain ⟨counts, h1, h2, h3⟩ := getStopCounts_spec fetch routes hok
  have hentry : ∀ r', lastRouteNamed routes.Data r'.LongName = some r' →
      (r'.LongName, stopCountOf fetch r') ∈ rangeOrder counts := by
    intro r' hr'
    rw [(hrange counts).mem_iff, mem_iff_mapGet? counts h3, h2, hr']
    rfl
  have hres : (getRouteByStopCount fetch rangeOrder routes fewest).1 =
      ((pickRoute fewest (rangeOrder counts) ("", if fewest then MaxInt32 else 0)).1,
        (pickRoute fewest (rangeOrder counts) ("", if fewest then MaxInt32 else 0)).2, none) := by
    simp only [getRouteByStopCount, h1]
  obtain ⟨r₀, hr₀, hpos⟩ := hsome
  have hbeat : beats fewest (stopCountOf fetch r₀) (if fewest then MaxInt32 else 0) = true := by
    cases fewest
    · simpa [beats] using hpos
    · simpa [beats] using hpos
  rcases pickRoute_spec fewest (rangeOrder counts) ("", if fewest then MaxInt32 else 0)
    with ⟨-, hnone⟩ | ⟨hmem, -, hbest⟩
  · have := hnone _ (hentry r₀ hr₀)
    rw [hbeat] at this
    exact Bool.noConfusion this
  · generalize hp : pickRoute fewest (rangeOrder counts) ("", if fewest then MaxInt32 else 0)
      = res at hmem hbest hres
    obtain ⟨name, c⟩ := res
    rw [(hrange counts).mem_iff, mem_iff_mapGet? counts h3, h2] at hmem
    cases hl : lastRouteNamed routes.Data name with
    | none => rw [hl] at hmem; exact Option.noConfusion hmem
    | some r =>
      rw [hl] at hmem
      obtain rfl : stopCountOf fetch r = c := by simpa using hmem
      obtain ⟨hr, rfl⟩ := lastRouteNamed_some hl
      refine ⟨r, hr, hl, hres, ?_⟩
      intro r' hr'
      have := hbest _ (hentry r' hr')
      cases fewest
      · simpa [beats] using this
      · simpa [beats] using this

theorem getRouteByStopCount_extremum_witness :
    IsRangeOrder id ∧
    (∀ r ∈ testRoutes.Data, ∃ resp, testFeed r.ID = .ok resp) ∧
    (getRouteByStopCount testFeed id testRoutes false).1 = ("Red Line", 2, none) ∧
    ∃ r ∈ testRoutes.Data, lastRouteNamed testRoutes.Data r.LongName = some r ∧
      (getRouteByStopCount testFeed id testRoutes false).1 =
        (r.LongName, stopCountOf testFeed r, none) ∧
      ∀ r', lastRouteNamed testRoutes.Data r'.LongName = some r' →
        if false = true then stopCountOf testFeed r ≤ stopCountOf testFeed r'
        else stopCountOf testFeed r' ≤ stopCountOf testFeed r :=
  ⟨fun m => List.Perm.refl m,
    by
      intro r hr
      simp only [testRoutes, List.mem_cons, List.mem_singleton, List.not_mem_nil, or_false] at hr
      rcases hr with rfl | rfl
      · exact ⟨_, rfl⟩
      · exact ⟨_, rfl⟩,
    rfl,
    getRouteByStopCount_extremum testFeed id testRoutes false (fun m => List.Perm.refl m)
      (by
        intro r hr
        simp only [testRoutes, List.mem_cons, List.mem_singleton, List.not_mem_nil,
          or_false] at hr
        rcases hr with rfl | rfl
        · exact ⟨_, rfl⟩
        · exact ⟨_, rfl⟩)
      ⟨⟨"Red Line", "red"⟩, by decide, by decide⟩⟩

theorem getRouteByStopCount_maxInt32 (stopNames : List String)
    (h : stopNames.length = MaxInt32) :
    (getRouteByStopCount (countFeed stopNames) id ⟨[⟨"Red Line", "red"⟩]⟩ true).1 =
      ("", MaxInt32, none) := by
  simp [getRouteByStopCount, getStopCounts, getStopCountsLoop, countFeed, mapSet, pickRoute, h]

/-- C13 fails as stated, at three inputs whose fetches all succeed.  Two
routes with the long name `A` and 2 and 1 stops: the result is `A` with 1,
which is not the greatest count.  One route `Red Line` without stops and
`fewest = false`: the result is the empty name.  One route `Red Line` with
`MaxInt32` stops and `fewest = true`: the result is the empty name. -/
theorem getRouteByStopCount_extremum_fails :
    ((getRouteByStopCount testFeed id ⟨[⟨"A", "red"⟩, ⟨"A", "orange"⟩]⟩ false).1
        = ("A", 1, none) ∧
      ¬ ∃ r ∈ [(⟨"A", "red"⟩ : routeData), ⟨"A", "orange"⟩],
        (getRouteByStopCount testFeed id ⟨[⟨"A", "red"⟩, ⟨"A", "orange"⟩]⟩ false).1 =
          (r.LongName, stopCountOf testFeed r, none) ∧
        ∀ r' ∈ [(⟨"A", "red"⟩ : routeData), ⟨"A", "orange"⟩],
          stopCountOf testFeed r' ≤ stopCountOf testFeed r) ∧
    (getStopCounts (countFeed []) ⟨[⟨"Red Line", "red"⟩]⟩ = (.ok [("Red Line", 0)], ["red"]) ∧
      (getRouteByStopCount (countFeed []) id ⟨[⟨"Red Line", "red"⟩]⟩ false).1 = ("", 0, none) ∧
      ¬ ∃ r ∈ [(⟨"Red Line", "red"⟩ : routeData)],
        (getRouteByStopCount (countFeed []) id ⟨[⟨"Red Line", "red"⟩]⟩ false).1 =
          (r.LongName, stopCountOf (countFeed []) r, none)) ∧
    ((∀ routeID, ∃ resp, countFeed (List.replicate MaxInt32 "stop") routeID = .ok resp) ∧
      (getRouteByStopCount (countFeed (List.replicate MaxInt32 "stop")) id
          ⟨[⟨"Red Line", "red"⟩]⟩ true).1 = ("", MaxInt32, none) ∧
      ¬ ∃ r ∈ [(⟨"Red Line", "red"⟩ : routeData)],
        (getRouteByStopCount (countFeed (List.replicate MaxInt32 "stop")) id
            ⟨[⟨"Red Line", "red"⟩]⟩ true).1 =
          (r.LongName, stopCountOf (countFeed (List.replicate MaxInt32 "stop")) r, none)) := by
  have h3 : (getRouteByStopCount (countFeed (List.replicate MaxInt32 "stop")) id
      ⟨[⟨"Red Line", "red"⟩]⟩ true).1 = ("", MaxInt32, none) :=
    getRouteByStopCount_maxInt32 _ (List.length_replicate _ _)
  refine ⟨⟨rfl, ?_⟩, ⟨rfl, rfl, ?_⟩, ⟨fun _ => ⟨_, rfl⟩, h3, ?_⟩⟩
  · rintro ⟨r, hr, hres, hmax⟩
    simp only [List.mem_cons, List.mem_singleton, List.not_mem_nil, or_false] at hr
    rcases hr with rfl | rfl
    · exact absurd hres (by decide)
    · exact absurd (hmax ⟨"A", "red"⟩ (by simp)) (by decide)
  · rintro ⟨r, hr, hres⟩
    simp only [List.mem_singleton] at hr
    subst hr
    exact absurd hres (by decide)
  · rintro ⟨r, hr, hres⟩
    simp only [List.mem_singleton] at hr
    subst hr
    rw [h3] at hres
    have hname : "" = "Red Line" := congrArg Prod.fst hres
    exact absurd hname (by decide)

/-- C14 at a tie: the routes `A` and `B`, in this order, have one stop each.
When `range` visits the entry of `B` before the entry of `A`, which Go
allows, `getRouteByStopCount` returns `B` for either value of `fewest`; it
returns `A` when the entry of `A` is visited first. -/
theorem getRouteByStopCount_tie_follows_range_order :
    IsRangeOrder List.reverse ∧
    stopCountOf (countFeed ["stop1"]) ⟨"A", "a"⟩ = 1 ∧
    stopCountOf (countFeed ["stop1"]) ⟨"B", "b"⟩ = 1 ∧
    (getRouteByStopCount (countFeed ["stop1"]) List.reverse ⟨[⟨"A", "a"⟩, ⟨"B", "b"⟩]⟩ false).1
      = ("B", 1, none) ∧
    (getRouteByStopCount (countFeed ["stop1"]) List.reverse ⟨[⟨"A", "a"⟩, ⟨"B", "b"⟩]⟩ true).1
      = ("B", 1, none) ∧
    (getRouteByStopCount (countFeed ["stop1"]) id ⟨[⟨"A", "a"⟩, ⟨"B", "b"⟩]⟩ false).1
      = ("A", 1, none) :=
  ⟨fun m => List.reverse_perm m, rfl, rfl, rfl, rfl, rfl⟩

/-! ## The direction of a query on a symmetric graph -/

theorem getConnectingRoutes_ne_nil_iff (G : adjacencyMap) (fs ts : List String) :
    getConnectingRoutes fs ts G ≠ [] ↔ ∃ f ∈ fs, ∃ t ∈ ts, Connected G f t := by
  rcases getConnectingRoutes_spec G fs ts with ⟨h1, h2⟩ | h2
  · constructor
    · intro h
      exact absurd h2 h
    · rintro ⟨f, hf, t, ht, hc⟩
      exact absurd hc (h1 f hf t ht)
  · obtain ⟨f, t, ⟨fs1, fs2, ts1, ts2, hfs, hts, -, -, hc⟩, hp, -⟩ := h2
    constructor
    · intro _
      exact ⟨f, by rw [hfs]; simp, t, by rw [hts]; simp, hc⟩
    · intro _
      exact hp.ne_nil

theorem reachable_symm (G : adjacencyMap)
    (hsym : ∀ A B, B ∈ adjGet G A ↔ A ∈ adjGet G B) (a b : String)
    (h : Reachable G a b) : Reachable G b a := by
  obtain ⟨p, hhead, hlast, hchain⟩ := h
  refine ⟨p.reverse, ?_, ?_, ?_⟩
  · rw [List.head?_reverse]; exact hlast
  · rw [List.getLast?_reverse]; exact hhead
  · rw [List.chain'_reverse]
    refine hchain.imp ?_
    intro x y hxy
    exact (hsym x y).1 hxy

theorem connected_symm (G : adjacencyMap)
    (hsym : ∀ A B, B ∈ adjGet G A ↔ A ∈ adjGet G B) (a b : String)
    (h : Connected G a b) : Connected G b a := by
  rcases h with h | h
  · exact Or.inl h.symm
  · exact Or.inr (reachable_symm G hsym a b h)

/-- C20: on a symmetric adjacency map, `getConnectingRoutes` from `fromRoutes`
to `toRoutes` is non-empty if and only if `getConnectingRoutes` from
`toRoutes` to `fromRoutes` is non-empty. -/
theorem getConnectingRoutes_direction (G : adjacencyMap)
    (hsym : ∀ A B, B ∈ adjGet G A ↔ A ∈ adjGet G B) (fromRoutes toRoutes : List String) :
    getConnectingRoutes fromRoutes toRoutes G ≠ [] ↔
      getConnectingRoutes toRoutes fromRoutes G ≠ [] := by
  rw [getConnectingRoutes_ne_nil_iff, getConnectingRoutes_ne_nil_iff]
  constructor
  · rintro ⟨f, hf, t, ht, hc⟩
    exact ⟨t, ht, f, hf, connected_symm G hsym f t hc⟩
  · rintro ⟨t, ht, f, hf, hc⟩
    exact ⟨f, hf, t, ht, connected_symm G hsym t f hc⟩

theorem getConnectingRoutes_direction_witness :
    (∀ A B, B ∈ adjGet [("Red", ["Green"]), ("Green", ["Red"])] A ↔
      A ∈ adjGet [("Red", ["Green"]), ("Green", ["Red"])] B) ∧
    getConnectingRoutes ["Red"] ["Green"] [("Red", ["Green"]), ("Green", ["Red"])]
      = ["Red", "Green"] ∧
    getConnectingRoutes ["Green"] ["Red"] [("Red", ["Green"]), ("Green", ["Red"])]
      = ["Green", "Red"] ∧
    (getConnectingRoutes ["Red"] ["Green"] [("Red", ["Green"]), ("Green", ["Red"])] ≠ [] ↔
      getConnectingRoutes ["Green"] ["Red"] [("Red", ["Green"]), ("Green", ["Red"])] ≠ []) :=
  ⟨by
      intro A B
      simp only [adjGet, mapGet?]
      split_ifs <;> simp_all <;> (rintro rfl; simp_all),
    by decide, by decide,
    getConnectingRoutes_direction [("Red", ["Green"]), ("Green", ["Red"])]
      (by
        intro A B
        simp only [adjGet, mapGet?]
        split_ifs <;> simp_all <;> (rintro rfl; simp_all))
      ["Red"] ["Green"]⟩

/-! ## The stop map -/

theorem mapGet?_addStopRoute (stops : stopMap) (s R s' : String) :
    mapGet? (addStopRoute stops s R) s' =
      if s' = s then
        some ⟨(match mapGet? stops s with
          | some sd => sd.name
          | none => s), stopRoutes stops s ++ [R]⟩
      else mapGet? stops s' := by
  unfold addStopRoute
  cases hget : mapGet? stops s with
  | none =>
    simp only [Option.isNone_none, if_true, mapGet?_mapSet_self]
    by_cases hs : s' = s
    · subst hs
      simp [stopRoutes, mapGet?_mapSet_self, hget]
    · simp [mapGet?_mapSet_ne _ _ _ _ (Ne.symm hs), hs]
  | some sd =>
    simp only [Option.isNone_some, Bool.false_eq_true, if_false, hget]
    by_cases hs : s' = s
    · subst hs
      simp [stopRoutes, mapGet?_mapSet_self, hget]
    · simp [mapGet?_mapSet_ne _ _ _ _ (Ne.symm hs), hs]

theorem stopKeysInv_step {stops : stopMap} {E : List (String × String)}
    (h : StopKeysInv stops E) (R s : String) :
    StopKeysInv (addStopRoute stops s R) (E ++ [(R, s)]) := by
  obtain ⟨h1, h2⟩ := h
  constructor
  · intro s' sd hsd
    rw [mapGet?_addStopRoute] at hsd
    by_cases hs : s' = s
    · subst hs
      simp only [if_true, Option.some.injEq] at hsd
      subst hsd
      cases hget : mapGet? stops s' with
      | none => rfl
      | some sd₀ => exact h1 s' sd₀ hget
    · simp only [hs, if_false] at hsd
      exact h1 s' sd hsd
  · intro s'
    rw [mapGet?_addStopRoute]
    by_cases hs : s' = s
    · subst hs
      simp only [if_true, Option.isSome_some, true_iff]
      exact ⟨R, by simp⟩
    · simp only [hs, if_false, h2 s']
      constructor
      · rintro ⟨A, hA⟩
        exact ⟨A, List.mem_append_left _ hA⟩
      · rintro ⟨A, hA⟩
        rcases List.mem_append.1 hA with hA | hA
        · exact ⟨A, hA⟩
        · have : s' = s := by
            have := List.mem_singleton.1 hA
            exact (Prod.mk.inj this).2
          exact absurd this hs

theorem processStops_keys (R : String) :
    ∀ (L : List stopResponseData) (stops : stopMap) (adj : adjacencyMap)
      (E : List (String × String)), StopKeysInv stops E →
      StopKeysInv (processStops true R L (stops, adj)).1 (E ++ stopEvents R L) := by
  intro L
  induction L with
  | nil => intro stops adj E h; simpa [processStops, stopEvents] using h
  | cons st rest ih =>
    intro stops adj E h
    have := ih (addStopRoute stops st.Name R)
      (linkRoutes R (stopRoutes (addStopRoute stops st.Name R) st.Name) adj) _
      (stopKeysInv_step h R st.Name)
    simpa [processStops, stopEvents, List.append_assoc] using this

theorem getStopRoutesLoop_keys (fetch : StopFeed) :
    ∀ (routes : List routeData) (stops : stopMap) (adj : adjacencyMap)
      (queried : List String) (E : List (String × String)) (stops' : stopMap)
      (adj' : adjacencyMap), StopKeysInv stops E →
      (getStopRoutesLoop fetch true routes (stops, adj) queried).1 = .ok (stops', adj') →
      StopKeysInv stops' (E ++ allEvents fetch routes) := by
  intro routes
  induction routes with
  | nil =>
    intro stops adj queried E stops' adj' h hres
    simp only [getStopRoutesLoop, Except.ok.injEq, Prod.mk.injEq] at hres
    rw [← hres.1]
    simpa [allEvents] using h
  | cons r rest ih =>
    intro stops adj queried E stops' adj' h hres
    cases hf : fetch r.ID with
    | error e => simp [getStopRoutesLoop, hf] at hres
    | ok resp =>
      simp only [getStopRoutesLoop, hf] at hres
      have hk := processStops_keys r.LongName resp.Data stops adj E h
      have := ih (processStops true r.LongName resp.Data (stops, adj)).1
        (processStops true r.LongName resp.Data (stops, adj)).2 _ _ stops' adj' hk hres
      simpa [allEvents, hf, List.append_assoc] using this

theorem stopEvents_filter (R : String) (s : String) :
    ∀ L : List stopResponseData, (L.map (fun st => st.Name)).Nodup →
      ((stopEvents R L).filter (fun e => decide (e.2 = s))).map Prod.fst =
        if s ∈ L.map (fun st => st.Name) then [R] else [] := by
  intro L
  induction L with
  | nil => intro _; simp [stopEvents]
  | cons st rest ih =>
    intro hnd
    simp only [List.map_cons, List.nodup_cons] at hnd
    have ih' := ih hnd.2
    simp only [stopEvents] at ih' ⊢
    by_cases hs : st.Name = s
    · subst hs
      have hnot : ¬ st.Name ∈ rest.map (fun st => st.Name) := hnd.1
      simp only [hnot, if_false] at ih'
      simp [List.filter_cons, ih']
    · have hs' : ¬ s = st.Name := fun e => hs e.symm
      simp only [List.map_cons, List.filter_cons, hs, decide_False, Bool.false_eq_true,
        if_false, ih', List.mem_cons, hs', false_or]

theorem allEvents_filter (fetch : StopFeed) (s : String) :
    ∀ routes : List routeData,
      (∀ r ∈ routes, ∀ resp, fetch r.ID = .ok resp →
        (resp.Data.map (fun st => st.Name)).Nodup) →
      ((allEvents fetch routes).filter (fun e => decide (e.2 = s))).map Prod.fst =
        (routes.filter (fun r => routeHasStop fetch r s)).map (fun r => r.LongName) := by
  intro routes
  induction routes with
  | nil => intro _; simp [allEvents]
  | cons r rest ih =>
    intro hnd
    have ih' := ih (fun r' hr' => hnd r' (List.mem_cons_of_mem _ hr'))
    have hsplit : allEvents fetch (r :: rest) =
        (match fetch r.ID with
          | .ok resp => stopEvents r.LongName resp.Data
          | .error _ => []) ++ allEvents fetch rest := by
      simp [allEvents]
    rw [hsplit, List.filter_append, List.map_append, ih', List.filter_cons]
    cases hf : fetch r.ID with
    | error e => simp [routeHasStop, hf]
    | ok resp =>
      have := stopEvents_filter r.LongName s resp.Data (hnd r (List.mem_cons_self _ _) resp hf)
      simp only [this, routeHasStop, hf]
      by_cases hmem : s ∈ resp.Data.map (fun st => st.Name)
      · simp [hmem]
      · simp [hmem]

theorem mem_allEvents_iff_hasStop (fetch : StopFeed) (routes : List routeData) (s : String) :
    (∃ A, (A, s) ∈ allEvents fetch routes) ↔ ∃ r ∈ routes, routeHasStop fetch r s = true := by
  unfold allEvents
  constructor
  · rintro ⟨A, hA⟩
    obtain ⟨r, hr, hmem⟩ := List.mem_flatMap.1 hA
    refine ⟨r, hr, ?_⟩
    cases hf : fetch r.ID with
    | error e => simp [hf] at hmem
    | ok resp =>
      rw [hf] at hmem
      simp only [stopEvents, List.mem_map, Prod.mk.injEq] at hmem
      obtain ⟨st, hst, -, h2⟩ := hmem
      simp only [routeHasStop, hf, decide_eq_true_eq, List.mem_map]
      exact ⟨st, hst, h2⟩
  · rintro ⟨r, hr, hhas⟩
    refine ⟨r.LongName, List.mem_flatMap.2 ⟨r, hr, ?_⟩⟩
    cases hf : fetch r.ID with
    | error e => simp [routeHasStop, hf] at hhas
    | ok resp =>
      simp only [routeHasStop, hf, decide_eq_true_eq, List.mem_map] at hhas
      obtain ⟨st, hst, h2⟩ := hhas
      simp only [stopEvents, List.mem_map, Prod.mk.injEq]
      exact ⟨st, hst, by simp, h2⟩

/-- C12: for every route list and every stop feed that answers for each of its
routes with a stop list that repeats no stop name, and for either value of
the flag, the stop map returned by `getStopRoutes` has as keys exactly the
stop names in the stop list of some route, each record is named after its
key, and its routes are the long names of the routes whose stop list has the
stop, in the order of the route list. -/
theorem getStopRoutes_stop_map (fetch : StopFeed) (routes : routesResponse) (b : Bool)
    (hok : ∀ r ∈ routes.Data, ∃ resp, fetch r.ID = .ok resp)
    (hnd : ∀ r ∈ routes.Data, ∀ resp, fetch r.ID = .ok resp →
      (resp.Data.map (fun st => st.Name)).Nodup) :
    ∃ stops adj, (getStopRoutes fetch routes b).1 = .ok (stops, adj) ∧
      (∀ s, (mapGet? stops s).isSome = true ↔
        ∃ r ∈ routes.Data, routeHasStop fetch r s = true) ∧
      ∀ s sd, mapGet? stops s = some sd →
        sd.name = s ∧
        sd.routes =
          (routes.Data.filter (fun r => routeHasStop fetch r s)).map (fun r => r.LongName) := by
  obtain ⟨stops, adj, h1, h2, -⟩ := getStopRoutes_inv fetch routes hok
  have hk : StopKeysInv stops (allEvents fetch routes.Data) := by
    have := getStopRoutesLoop_keys fetch routes.Data [] [] [] [] stops adj
      ⟨by intro s sd h; simp [mapGet?] at h, by intro s; simp [mapGet?]⟩ h1
    simpa using this
  have hb : ∃ adj', (getStopRoutes fetch routes b).1 = .ok (stops, adj') := by
    cases b with
    | true => exact ⟨adj, h1⟩
    | false =>
      refine ⟨[], ?_⟩
      have hflag := getStopRoutesLoop_false fetch routes.Data [] [] [] []
      unfold getStopRoutes at h1 ⊢
      rw [hflag]
      revert h1
      rcases getStopRoutesLoop fetch true routes.Data ([], []) [] with ⟨res, l⟩
      intro h1
      simp only at h1
      subst h1
      rfl
  obtain ⟨adj', hres⟩ := hb
  refine ⟨stops, adj', hres, ?_, ?_⟩
  · intro s
    rw [hk.2 s, mem_allEvents_iff_hasStop]
  · intro s sd hsd
    refine ⟨hk.1 s sd hsd, ?_⟩
    have := h2 s
    rw [allEvents_filter fetch s routes.Data hnd] at this
    rw [← this]
    simp [stopRoutes, hsd]

theorem getStopRoutes_stop_map_witness :
    (∀ r ∈ testRoutes.Data, ∃ resp, testFeed r.ID = .ok resp) ∧
    (∀ r ∈ testRoutes.Data, ∀ resp, testFeed r.ID = .ok resp →
      (resp.Data.map (fun st => st.Name)).Nodup) ∧
    (getStopRoutes testFeed testRoutes true).1 =
      .ok ([("stop1", ⟨"stop1", ["Red Line", "Orange Line"]⟩),
            ("stop2", ⟨"stop2", ["Red Line"]⟩)],
           [("Red Line", ["Orange Line"]), ("Orange Line", ["Red Line"])]) ∧
    ∃ stops adj, (getStopRoutes testFeed testRoutes true).1 = .ok (stops, adj) ∧
      (∀ s, (mapGet? stops s).isSome = true ↔
        ∃ r ∈ testRoutes.Data, routeHasStop testFeed r s = true) ∧
      ∀ s sd, mapGet? stops s = some sd →
        sd.name = s ∧
        sd.routes =
          (testRoutes.Data.filter (fun r => routeHasStop testFeed r s)).map
            (fun r => r.LongName) :=
  ⟨by
      intro r hr
      simp only [testRoutes, List.mem_cons, List.mem_singleton, List.not_mem_nil, or_false] at hr
      rcases hr with rfl | rfl
      · exact ⟨_, rfl⟩
      · exact ⟨_, rfl⟩,
    by
      intro r hr resp hresp
      simp only [testRoutes, List.mem_cons, List.mem_singleton, List.not_mem_nil, or_false] at hr
      rcases hr with rfl | rfl
      · obtain rfl : (⟨[⟨"stop1", ""⟩, ⟨"stop2", ""⟩]⟩ : stopsResponse) = resp :=
          Except.ok.inj hresp
        decide
      · obtain rfl : (⟨[⟨"stop1", ""⟩]⟩ : stopsResponse) = resp := Except.ok.inj hresp
        decide,
    rfl,
    getStopRoutes_stop_map testFeed testRoutes true
      (by
        intro r hr
        simp only [testRoutes, List.mem_cons, List.mem_singleton, List.not_mem_nil,
          or_false] at hr
        rcases hr with rfl | rfl
        · exact ⟨_, rfl⟩
        · exact ⟨_, rfl⟩)
      (by
        intro r hr resp hresp
        simp only [testRoutes, List.mem_cons, List.mem_singleton, List.not_mem_nil,
          or_false] at hr
        rcases hr with rfl | rfl
        · obtain rfl : (⟨[⟨"stop1", ""⟩, ⟨"stop2", ""⟩]⟩ : stopsResponse) = resp :=
            Except.ok.inj hresp
          decide
        · obtain rfl : (⟨[⟨"stop1", ""⟩]⟩ : stopsResponse) = resp := Except.ok.inj hresp
          decide)⟩

end MBTA
